import Mathlib

/- Shallow embedding of the CPU scheduling simulator (`cpu_scheduler.cpp`).

Conventions used throughout this development:
* C++ `int` is modelled as `Int` (no claim below involves machine overflow).
* C++ `double` is modelled as `ℚ` with exact arithmetic: every claim below
  depends only on equality of identically-performed computations, never on
  floating-point rounding behaviour.
* `std::sort` guarantees only that its output is a permutation of its input
  ordered by the comparator; tie order is unspecified (`std::sort` is not
  stable).  `priorityScheduling` and `edfScheduling` therefore take the
  sorted list as a parameter, and theorems constrain it by exactly that
  contract (`SortSpecPriority` / `SortSpecDeadline`).
* The round-robin `while` loop is modelled with explicit fuel; a `none`
  result means the loop did not reach completion within the given fuel.
  Divergence on non-positive quanta is proved for every fuel value. -/

/- The `Process` struct of `cpu_scheduler.cpp`. -/
structure Process where
  id : Int
  burstTime : Int
  priority : Int
  deadline : Int
  waitingTime : Int
  turnaroundTime : Int
  remainingTime : Int
  coreId : Int
  isRealTime : Bool
  powerConsumption : ℚ
deriving DecidableEq, Repr

/- The `Process` constructor: `Process(int processId, int bt, int prio, int dl, bool rt)`;
`powerConsumption = bt * 0.1`. -/
def mkProcess (processId bt prio dl : Int) (rt : Bool) : Process :=
  { id := processId
    burstTime := bt
    priority := prio
    deadline := dl
    waitingTime := 0
    turnaroundTime := 0
    remainingTime := bt
    coreId := -1
    isRealTime := rt
    powerConsumption := (bt : ℚ) / 10 }

/- A dummy process used only as the default value of `List.getD` lookups;
every lookup below is performed at an in-range index. -/
def dummyProcess : Process := mkProcess 0 0 0 0 false

/- The `SystemMetrics` struct. -/
structure SystemMetrics where
  totalPowerConsumption : ℚ
  averagePowerPerCore : ℚ
  deadlineMisses : Int
  totalProcesses : Int
  throughput : ℚ
deriving DecidableEq, Repr

/- The zero-valued default state of `SystemMetrics` (its in-class initializers). -/
def SystemMetrics.init : SystemMetrics :=
  { totalPowerConsumption := 0
    averagePowerPerCore := 0
    deadlineMisses := 0
    totalProcesses := 0
    throughput := 0 }

/- `SystemMetrics::calculateMetrics(int numCores, int totalTime)`. -/
def calculateMetrics (m : SystemMetrics) (numCores totalTime : Int) : SystemMetrics :=
  let m1 := if 0 < numCores then
    { m with averagePowerPerCore := m.totalPowerConsumption / (numCores : ℚ) } else m
  if 0 < totalTime then
    { m1 with throughput := (m1.totalProcesses : ℚ) / (totalTime : ℚ) } else m1

/- The private state of `EnhancedCPUScheduler`: the process collection, the
per-core Gantt charts (timelines of `(processId, duration)` slices), the core
count and the metrics snapshot. -/
structure SchedState where
  processes : List Process
  ganttCharts : List (List (Int × Int))
  numCores : Int
  metrics : SystemMetrics
deriving DecidableEq, Repr

/- Apply `f` to the element of `l` at position `i` (no-op when out of range);
models in-place mutation of `coreTime[i]` / `ganttCharts[i]`. -/
def listModify {α : Type} : List α → Nat → (α → α) → List α
  | [], _, _ => []
  | x :: xs, 0, f => f x :: xs
  | x :: xs, i + 1, f => x :: listModify xs i f

/- `coreTime.empty() ? 0 : *std::max_element(coreTime.begin(), coreTime.end())`. -/
def listMaxD : List Int → Int
  | [] => 0
  | x :: xs => xs.foldl max x

/- Tail of `std::min_element`: scan the remaining list, keeping the current
best value `bv` at index `bi`, replacing the best only on strict decrease
(so the first minimal element wins, as `std::min_element` specifies). -/
def minIdxGo : List Int → Nat → Int → Nat → Nat
  | [], _, _, bi => bi
  | x :: xs, i, bv, bi =>
    if x < bv then minIdxGo xs (i + 1) x i else minIdxGo xs (i + 1) bv bi

/- `std::min_element(coreTime.begin(), coreTime.end()) - coreTime.begin()`:
the index of the first minimal element (0 for the empty list, matching the
`end - begin` result). -/
def minElementIdx : List Int → Nat
  | [] => 0
  | x :: xs => minIdxGo xs 1 x 0

/- `resetProcessesState` on one process: reset the mutable per-run fields. -/
def resetProcess (p : Process) : Process :=
  { p with
    waitingTime := 0
    turnaroundTime := 0
    remainingTime := p.burstTime
    coreId := -1 }

/- `EnhancedCPUScheduler::resetProcessesState()`: clear every chart, reset
every process's mutable fields, replace the metrics wholesale. -/
def resetProcessesState (st : SchedState) : SchedState :=
  { processes := st.processes.map resetProcess
    ganttCharts := st.ganttCharts.map (fun _ => ([] : List (Int × Int)))
    numCores := st.numCores
    metrics := SystemMetrics.init }

/- `EnhancedCPUScheduler::clearProcesses()`. -/
def clearProcesses (st : SchedState) : SchedState :=
  { processes := []
    ganttCharts := st.ganttCharts.map (fun _ => ([] : List (Int × Int)))
    numCores := st.numCores
    metrics := SystemMetrics.init }

/- `std::vector::resize(n)`: keep the first `n` entries, pad with
default-constructed entries. -/
def listResize {α : Type} (l : List α) (n : Nat) (d : α) : List α :=
  l.take n ++ List.replicate (n - l.length) d

/- `EnhancedCPUScheduler::reconfigure(int newNumCores)`: clear everything,
then set the core count and resize the chart vector.  Note the code performs
no validation of `newNumCores`. -/
def reconfigure (newNumCores : Int) (st : SchedState) : SchedState :=
  let st1 := clearProcesses st
  { processes := st1.processes
    ganttCharts := listResize st1.ganttCharts newNumCores.toNat ([] : List (Int × Int))
    numCores := newNumCores
    metrics := st1.metrics }

/- The loop body shared textually by the three greedy policies, FCFS form:
iterate over the process collection in place, assigning each process to the
first least-busy core. -/
def fcfsGo : List Process → List Int → List (List (Int × Int)) → ℚ →
    (List Process × List Int × List (List (Int × Int)) × ℚ)
  | [], ct, charts, pw => ([], ct, charts, pw)
  | p :: rest, ct, charts, pw =>
    let bestCore := minElementIdx ct
    let wt := ct.getD bestCore 0
    let p1 := { p with
      coreId := (bestCore : Int)
      waitingTime := wt
      turnaroundTime := wt + p.burstTime }
    let r := fcfsGo rest (listModify ct bestCore (· + p.burstTime))
      (listModify charts bestCore (· ++ [(p.id, p.burstTime)]))
      (pw + p.powerConsumption)
    (p1 :: r.1, r.2)

/- `EnhancedCPUScheduler::multiCoreFCFS()` applied to the already-reset state
`s0` (the method begins with `resetProcessesState()`). -/
def fcfsCore (s0 : SchedState) : SchedState :=
  let r := fcfsGo s0.processes (List.replicate s0.numCores.toNat 0) s0.ganttCharts 0
  let totalTime := listMaxD r.2.1
  { processes := r.1
    ganttCharts := r.2.2.1
    numCores := s0.numCores
    metrics := calculateMetrics
      { totalPowerConsumption := r.2.2.2
        averagePowerPerCore := 0
        deadlineMisses := 0
        totalProcesses := (s0.processes.length : Int)
        throughput := 0 } s0.numCores totalTime }

/- `EnhancedCPUScheduler::multiCoreFCFS()`. -/
def multiCoreFCFS (st : SchedState) : SchedState :=
  fcfsCore (resetProcessesState st)

/- Loop body of `priorityScheduling`: for each element of the sorted copy,
pick the least busy core, then locate (`std::find_if`) the first process in
the collection with the same `id` and write the assignment into it. -/
def priGo : List Process → List Process → List Int → List (List (Int × Int)) → ℚ →
    (List Process × List Int × List (List (Int × Int)) × ℚ)
  | [], procs, ct, charts, pw => (procs, ct, charts, pw)
  | s :: ss, procs, ct, charts, pw =>
    let bestCore := minElementIdx ct
    match procs.findIdx? (fun p => decide (p.id = s.id)) with
    | some i =>
      let q := procs.getD i dummyProcess
      let q1 := { q with
        coreId := (bestCore : Int)
        waitingTime := ct.getD bestCore 0
        turnaroundTime := ct.getD bestCore 0 + q.burstTime }
      priGo ss (procs.set i q1) (listModify ct bestCore (· + q.burstTime))
        (listModify charts bestCore (· ++ [(q.id, q.burstTime)]))
        (pw + q.powerConsumption)
    | none => priGo ss procs ct charts pw

/- `EnhancedCPUScheduler::priorityScheduling()` applied to the reset state,
with the `std::sort` output passed as the `sorted` parameter (see the header
comment; only the sort's contract is assumed, in the theorems' hypotheses). -/
def priCore (sorted : List Process) (s0 : SchedState) : SchedState :=
  let r := priGo sorted s0.processes (List.replicate s0.numCores.toNat 0) s0.ganttCharts 0
  let totalTime := listMaxD r.2.1
  { processes := r.1
    ganttCharts := r.2.2.1
    numCores := s0.numCores
    metrics := calculateMetrics
      { totalPowerConsumption := r.2.2.2
        averagePowerPerCore := 0
        deadlineMisses := 0
        totalProcesses := (s0.processes.length : Int)
        throughput := 0 } s0.numCores totalTime }

/- `EnhancedCPUScheduler::priorityScheduling()`. -/
def priorityScheduling (sorted : List Process) (st : SchedState) : SchedState :=
  priCore sorted (resetProcessesState st)

/- Loop body of `edfScheduling`: as `priGo`, plus the deadline-miss check
performed on the just-written turnaround time. -/
def edfGo : List Process → List Process → List Int → List (List (Int × Int)) → ℚ → Int →
    (List Process × List Int × List (List (Int × Int)) × ℚ × Int)
  | [], procs, ct, charts, pw, misses => (procs, ct, charts, pw, misses)
  | s :: ss, procs, ct, charts, pw, misses =>
    let bestCore := minElementIdx ct
    match procs.findIdx? (fun p => decide (p.id = s.id)) with
    | some i =>
      let q := procs.getD i dummyProcess
      let q1 := { q with
        coreId := (bestCore : Int)
        waitingTime := ct.getD bestCore 0
        turnaroundTime := ct.getD bestCore 0 + q.burstTime }
      let misses1 := if 0 < q.deadline ∧ q.deadline < q1.turnaroundTime
        then misses + 1 else misses
      edfGo ss (procs.set i q1) (listModify ct bestCore (· + q.burstTime))
        (listModify charts bestCore (· ++ [(q.id, q.burstTime)]))
        (pw + q.powerConsumption) misses1
    | none => edfGo ss procs ct charts pw misses

/- `EnhancedCPUScheduler::edfScheduling()` applied to the reset state, with
the `std::sort` output passed as the `sorted` parameter. -/
def edfCore (sorted : List Process) (s0 : SchedState) : SchedState :=
  let r := edfGo sorted s0.processes (List.replicate s0.numCores.toNat 0) s0.ganttCharts 0 0
  let totalTime := listMaxD r.2.1
  { processes := r.1
    ganttCharts := r.2.2.1
    numCores := s0.numCores
    metrics := calculateMetrics
      { totalPowerConsumption := r.2.2.2.1
        averagePowerPerCore := 0
        deadlineMisses := r.2.2.2.2
        totalProcesses := (s0.processes.length : Int)
        throughput := 0 } s0.numCores totalTime }

/- `EnhancedCPUScheduler::edfScheduling()`. -/
def edfScheduling (sorted : List Process) (st : SchedState) : SchedState :=
  edfCore sorted (resetProcessesState st)

/- State of the round-robin simulation: the shared process array, one FIFO
queue of process indices per core (the C++ queues hold pointers into
`processes`), the per-core busy times, the charts, and the power accumulator
(the only metrics field the loop touches). -/
structure RRState where
  procs : List Process
  queues : List (List Nat)
  coreTime : List Int
  charts : List (List (Int × Int))
  power : ℚ
deriving DecidableEq, Repr

/- One core's turn inside the round-robin `for` loop: if the core's queue is
non-empty, pop its front process, execute `min(timeQuantum, remainingTime)`
units, record the slice, and either re-enqueue or finalize the process. -/
def rrCoreStep (tq : Int) (s : RRState) (core : Nat) : RRState :=
  match s.queues.getD core [] with
  | [] => s
  | j :: rest =>
    let p := s.procs.getD j dummyProcess
    let execTime := min tq p.remainingTime
    let charts1 := listModify s.charts core (· ++ [(p.id, execTime)])
    let p1 := { p with remainingTime := p.remainingTime - execTime }
    let ct1 := listModify s.coreTime core (· + execTime)
    if 0 < p1.remainingTime then
      { procs := s.procs.set j p1
        queues := s.queues.set core (rest ++ [j])
        coreTime := ct1
        charts := charts1
        power := s.power }
    else
      let ctVal := ct1.getD core 0
      let p2 := { p1 with
        coreId := (core : Int)
        turnaroundTime := ctVal
        waitingTime := ctVal - p1.burstTime }
      { procs := s.procs.set j p2
        queues := s.queues.set core rest
        coreTime := ct1
        charts := charts1
        power := s.power + p2.powerConsumption }

/- One pass of the `for(core = 0; core < numCores; ++core)` loop. -/
def rrPass (tq : Int) (nc : Nat) (s : RRState) : RRState :=
  (List.range nc).foldl (rrCoreStep tq) s

/- The `while(active)` loop with explicit fuel.  A pass is run only when some
queue is non-empty at its start (in the code, `active` is recomputed during
each pass; a core's queue is only modified at that core's own turn, so the
recomputed flag equals "some queue non-empty at pass start"). -/
def rrLoop (tq : Int) (nc : Nat) : Nat → RRState → Option RRState
  | 0, s => if s.queues.all List.isEmpty then some s else none
  | fuel + 1, s =>
    if s.queues.all List.isEmpty then some s
    else rrLoop tq nc fuel (rrPass tq nc s)

/- The static distribution `coreQueues[i % numCores].push(&processes[i])`:
queue `c` receives the indices `j` with `j % nc = c`, in increasing order. -/
def buildQueues (n nc : Nat) : List (List Nat) :=
  (List.range nc).map (fun c => (List.range n).filter (fun j => decide (j % nc = c)))

/- Fuel sufficient for every terminating run with a positive quantum (each
process needs at most `burstTime` slices, plus one for a zero burst, plus the
final all-empty pass); its exact value is irrelevant to the theorems, which
only ever assume that the loop reported completion. -/
def rrFuel (ps : List Process) : Nat :=
  ps.foldl (fun a p => a + p.burstTime.toNat + 1) 0 + 2

/- `EnhancedCPUScheduler::multiCoreRoundRobin(int timeQuantum)` applied to
the reset state; `none` models the C++ loop failing to terminate. -/
def rrCore (tq : Int) (s0 : SchedState) : Option SchedState :=
  let nc := s0.numCores.toNat
  let n := s0.processes.length
  match rrLoop tq nc (rrFuel s0.processes)
      { procs := s0.processes
        queues := buildQueues n nc
        coreTime := List.replicate nc 0
        charts := s0.ganttCharts
        power := 0 } with
  | some s =>
    let totalTime := listMaxD s.coreTime
    some { processes := s.procs
           ganttCharts := s.charts
           numCores := s0.numCores
           metrics := calculateMetrics
             { totalPowerConsumption := s.power
               averagePowerPerCore := 0
               deadlineMisses := 0
               totalProcesses := (n : Int)
               throughput := 0 } s0.numCores totalTime }
  | none => none

/- `EnhancedCPUScheduler::multiCoreRoundRobin(int timeQuantum)`. -/
def multiCoreRoundRobin (tq : Int) (st : SchedState) : Option SchedState :=
  rrCore tq (resetProcessesState st)

/- The policy entry points as exposed to the caller (`runAndDisplay` in
`cpu_scheduler.cpp` checks `isEmpty()` and returns without invoking the
policy when the collection is empty). -/
def runFCFS (st : SchedState) : SchedState :=
  if st.processes.isEmpty then st else multiCoreFCFS st

def runPriority (sorted : List Process) (st : SchedState) : SchedState :=
  if st.processes.isEmpty then st else priorityScheduling sorted st

def runEDF (sorted : List Process) (st : SchedState) : SchedState :=
  if st.processes.isEmpty then st else edfScheduling sorted st

def runRoundRobin (tq : Int) (st : SchedState) : Option SchedState :=
  if st.processes.isEmpty then some st else multiCoreRoundRobin tq st

/- The contract `std::sort` provides for the priority comparator
`a.priority < b.priority`: a permutation of the input, non-decreasing in the
key.  Nothing more is guaranteed; in particular not stability. -/
def SortedByPriority (l : List Process) : Prop :=
  l.Pairwise (fun a b => a.priority ≤ b.priority)

def SortSpecPriority (input sorted : List Process) : Prop :=
  sorted.Perm input ∧ SortedByPriority sorted

/- The same contract for the EDF comparator `a.deadline < b.deadline`. -/
def SortedByDeadline (l : List Process) : Prop :=
  l.Pairwise (fun a b => a.deadline ≤ b.deadline)

def SortSpecDeadline (input sorted : List Process) : Prop :=
  sorted.Perm input ∧ SortedByDeadline sorted

/- The deadline-miss count recomputed independently from a finalized
process list (claim C8's right-hand side). -/
def countMisses (l : List Process) : Nat :=
  l.countP (fun p => decide (0 < p.deadline ∧ p.deadline < p.turnaroundTime))

instance : Inhabited Process := ⟨dummyProcess⟩

/- The fields of a `Process` that no policy run mutates (everything except
`waitingTime`, `turnaroundTime`, `remainingTime`, `coreId`). -/
def immutP (p : Process) : Int × Int × Int × Int × Bool × ℚ :=
  (p.id, p.burstTime, p.priority, p.deadline, p.isRealTime, p.powerConsumption)

/- Concrete engine states used by counterexamples and witnesses below. -/

/- A 4-core engine holding one process; used to evaluate `reconfigure`. -/
def preReconfigState : SchedState :=
  { processes := [mkProcess 1 5 128 0 false]
    ganttCharts := [[], [], [], []]
    numCores := 4
    metrics := SystemMetrics.init }

/- A 2-core engine with an empty process collection. -/
def emptyState : SchedState :=
  { processes := []
    ganttCharts := [[], []]
    numCores := 2
    metrics := SystemMetrics.init }

/- A fully assigned process: a valid core in `[0, k)` and the turnaround
invariant, the conclusion of claim C1 (with `k` cores). -/
def GoodAssign (k : Nat) (p : Process) : Prop :=
  0 ≤ p.coreId ∧ p.coreId < (k : Int) ∧
  p.turnaroundTime = p.waitingTime + p.burstTime

/- Process `j` finalized by the round-robin loop: its core is its static
core `j % nc`, the turnaround invariant holds, and (for a positive quantum)
a zero-burst process has received a zero-duration slice on its core. -/
def RRFin (tq : Int) (nc : Nat) (ps0 : List Process) (s : RRState) (j : Nat) : Prop :=
  (s.procs.getD j dummyProcess).coreId = ((j % nc : Nat) : Int) ∧
  (s.procs.getD j dummyProcess).turnaroundTime
    = (s.procs.getD j dummyProcess).waitingTime + (s.procs.getD j dummyProcess).burstTime ∧
  ((1 ≤ tq ∧ (ps0.getD j dummyProcess).burstTime = 0) →
    ((ps0.getD j dummyProcess).id, 0) ∈ s.charts.getD (j % nc) [])

/- Invariant of the round-robin loop over the initial (reset) process list
`ps0`: lengths are stable, immutable fields never change, queues hold valid
indices on their static core (with zero-burst entries still at remaining 0
when the quantum is positive), and every process is either still queued or
finalized. -/
def RRInv (tq : Int) (nc : Nat) (ps0 : List Process) (s : RRState) : Prop :=
  s.procs.length = ps0.length ∧
  s.procs.map immutP = ps0.map immutP ∧
  s.queues.length = nc ∧
  nc ≤ s.charts.length ∧
  (∀ c, c < nc → ∀ j ∈ s.queues.getD c [], j < ps0.length ∧ j % nc = c ∧
    ((1 ≤ tq ∧ (ps0.getD j dummyProcess).burstTime = 0) →
      (s.procs.getD j dummyProcess).remainingTime = 0)) ∧
  (∀ j, j < ps0.length → (∃ c, c < nc ∧ j ∈ s.queues.getD c []) ∨ RRFin tq nc ps0 s j)

/- Two processes sharing id 1 (bursts 5 and 3), on a single core: the
duplicate-id counterexample state for Priority/EDF. -/
def dupIdState : SchedState :=
  { processes := [mkProcess 1 5 1 4 false, mkProcess 1 3 2 10 false]
    ganttCharts := [[]]
    numCores := 1
    metrics := SystemMetrics.init }

/- The `std::sort` output for `dupIdState` under either comparator (its keys
are already strictly increasing, so the sorted order is forced). -/
def dupIdSorted : List Process := dupIdState.processes.map resetProcess

/- A single zero-burst process on one core: the round-robin zero-burst state. -/
def zeroBurstState : SchedState :=
  { processes := [mkProcess 7 0 128 0 false]
    ganttCharts := [[]]
    numCores := 1
    metrics := SystemMetrics.init }

/- One process of burst 1 on one core: feeding quantum 0 to round-robin on
this state makes the C++ loop spin forever. -/
def quantumZeroState : SchedState :=
  { processes := [mkProcess 1 1 128 0 false]
    ganttCharts := [[]]
    numCores := 1
    metrics := SystemMetrics.init }

/- A well-formed two-process, two-core state used by witnesses. -/
def witnessState : SchedState :=
  { processes := [mkProcess 1 4 7 9 false, mkProcess 2 2 3 1 true]
    ganttCharts := [[], []]
    numCores := 2
    metrics := SystemMetrics.init }

/- The state produced by a completed round-robin run (the input state when
the run did not complete); used to state closed witness facts. -/
def rrResultOrSelf (tq : Int) (st : SchedState) : SchedState :=
  (multiCoreRoundRobin tq st).getD st

/- The deadline-sorted `std::sort` output for `witnessState` (deadlines
1 < 9, so this order is forced). -/
def edfWitnessSorted : List Process :=
  [resetProcess (mkProcess 2 2 3 1 true), resetProcess (mkProcess 1 4 7 9 false)]

/- Two distinct-id processes with EQUAL priority (and equal deadline), on a
single core: the tie-stability counterexample state. -/
def tieState : SchedState :=
  { processes := [mkProcess 1 3 5 0 false, mkProcess 2 4 5 0 false]
    ganttCharts := [[]]
    numCores := 1
    metrics := SystemMetrics.init }

/- A `std::sort`-admissible output for `tieState` that REVERSES the two
tied processes: it is a permutation and is (weakly) sorted by priority, so
`std::sort` is allowed to produce it — it is not stable. -/
def tieSwappedSorted : List Process :=
  [resetProcess (mkProcess 2 4 5 0 false), resetProcess (mkProcess 1 3 5 0 false)]

/- Helper list lemmas for the embedding. -/

theorem listModify_length {α : Type} (l : List α) (i : Nat) (f : α → α) :
    (listModify l i f).length = l.length := by
  induction l generalizing i with
  | nil => rfl
  | cons x xs ih =>
    cases i with
    | zero => rfl
    | succ i => simpa [listModify] using ih i

theorem listModify_getD_self {α : Type} (l : List α) (i : Nat) (f : α → α) (d : α)
    (h : i < l.length) : (listModify l i f).getD i d = f (l.getD i d) := by
  induction l generalizing i with
  | nil => simp at h
  | cons x xs ih =>
    cases i with
    | zero => simp [listModify]
    | succ i =>
      simp only [listModify, List.getD_cons_succ]
      exact ih i (by simpa using h)

theorem listModify_getD_ne {α : Type} (l : List α) (i j : Nat) (f : α → α) (d : α)
    (h : i ≠ j) : (listModify l i f).getD j d = l.getD j d := by
  induction l generalizing i j with
  | nil => rfl
  | cons x xs ih =>
    cases i with
    | zero =>
      cases j with
      | zero => exact absurd rfl h
      | succ j => simp [listModify]
    | succ i =>
      cases j with
      | zero => simp [listModify]
      | succ j =>
        simp only [listModify, List.getD_cons_succ]
        exact ih i j (by omega)

theorem set_getD_self {α : Type} (l : List α) (i : Nat) (d : α) :
    l.set i (l.getD i d) = l := by
  induction l generalizing i with
  | nil => rfl
  | cons x xs ih =>
    cases i with
    | zero => simp
    | succ i => simpa using ih i

theorem getD_set_self {α : Type} (l : List α) (i : Nat) (a d : α) (h : i < l.length) :
    (l.set i a).getD i d = a := by
  induction l generalizing i with
  | nil => simp at h
  | cons x xs ih =>
    cases i with
    | zero => simp
    | succ i =>
      simp only [List.set_cons_succ, List.getD_cons_succ]
      exact ih i (by simpa using h)

theorem getD_set_ne {α : Type} (l : List α) (i j : Nat) (a d : α) (h : i ≠ j) :
    (l.set i a).getD j d = l.getD j d := by
  induction l generalizing i j with
  | nil => rfl
  | cons x xs ih =>
    cases i with
    | zero =>
      cases j with
      | zero => exact absurd rfl h
      | succ j => simp
    | succ i =>
      cases j with
      | zero => simp
      | succ j =>
        simp only [List.set_cons_succ, List.getD_cons_succ]
        exact ih i j (by omega)

theorem map_set_self {α β : Type} (l : List α) (i : Nat) (a : α) (f : α → β) (d : α)
    (hfa : f a = f (l.getD i d)) : (l.set i a).map f = l.map f := by
  induction l generalizing i with
  | nil => rfl
  | cons x xs ih =>
    cases i with
    | zero => simp_all
    | succ i =>
      simp only [List.set_cons_succ, List.map_cons]
      rw [ih i (by simpa using hfa)]

theorem map_getD {α β : Type} (l : List α) (f : α → β) (i : Nat) (d : α) (h : i < l.length) :
    (l.map f).getD i (f d) = f (l.getD i d) := List.getD_map l d f

theorem mem_getD_of_lt {α : Type} (l : List α) (i : Nat) (d : α) (h : i < l.length) :
    l.getD i d ∈ l := by
  rw [List.getD_eq_getElem l d h]
  exact List.getElem_mem h

theorem findIdx?_spec {α : Type} (d : α) :
    ∀ (l : List α) (p : α → Bool) (j : Nat), l.findIdx? p = some j →
      j < l.length ∧ p (l.getD j d) = true ∧ ∀ k, k < j → p (l.getD k d) = false := by
  intro l
  induction l with
  | nil => intro p j h; simp [List.findIdx?] at h
  | cons x xs ih =>
    intro p j h
    rw [List.findIdx?_cons] at h
    by_cases hx : p x
    · simp only [hx, if_pos] at h
      cases h
      exact ⟨Nat.succ_pos _, by simpa using hx, fun k hk => absurd hk (Nat.not_lt_zero k)⟩
    · simp only [hx, if_neg, Bool.false_eq_true, List.findIdx?_succ] at h
      match hx2 : xs.findIdx? p with
      | none => rw [hx2] at h; simp at h
      | some j2 =>
        rw [hx2] at h
        simp only [Option.map_some'] at h
        cases h
        obtain ⟨h1, h2, h3⟩ := ih p j2 hx2
        refine ⟨by simpa using Nat.succ_lt_succ h1, by simpa using h2, ?_⟩
        intro k hk
        cases k with
        | zero => simpa using hx
        | succ k => simpa using h3 k (Nat.lt_of_succ_lt_succ hk)

theorem findIdx?_isSome_of_mem {α : Type} {l : List α} {p : α → Bool} {x : α}
    (hx : x ∈ l) (hp : p x = true) : ∃ j, l.findIdx? p = some j := by
  match h : l.findIdx? p with
  | some j => exact ⟨j, rfl⟩
  | none =>
    rw [List.findIdx?_eq_none_iff] at h
    rw [h x hx] at hp
    exact absurd hp (by simp)

/- Correctness of the `std::min_element` embedding: starting from a best
index `bi` into the already-scanned prefix `pre`, the scan returns the index
of the first minimal element of the whole list. -/
theorem minIdxGo_spec :
    ∀ (xs pre : List Int) (bi : Nat), bi < pre.length →
      (∀ j, j < pre.length → pre.getD bi 0 ≤ pre.getD j 0) →
      (∀ j, j < bi → pre.getD bi 0 < pre.getD j 0) →
      minIdxGo xs pre.length (pre.getD bi 0) bi < (pre ++ xs).length ∧
      (∀ j, j < (pre ++ xs).length →
        (pre ++ xs).getD (minIdxGo xs pre.length (pre.getD bi 0) bi) 0 ≤ (pre ++ xs).getD j 0) ∧
      (∀ j, j < minIdxGo xs pre.length (pre.getD bi 0) bi →
        (pre ++ xs).getD (minIdxGo xs pre.length (pre.getD bi 0) bi) 0 < (pre ++ xs).getD j 0) := by
  intro xs
  induction xs with
  | nil =>
    intro pre bi hbi hmin hfirst
    simp only [minIdxGo, List.append_nil]
    exact ⟨hbi, hmin, hfirst⟩
  | cons x xs ih =>
    intro pre bi hbi hmin hfirst
    have hgetx : (pre ++ [x]).getD pre.length 0 = x := by
      rw [List.getD_append_right _ _ _ _ (Nat.le_refl _)]
      simp
    have hgetold : ∀ j, j < pre.length → (pre ++ [x]).getD j 0 = pre.getD j 0 := by
      intro j hj; exact List.getD_append _ _ _ _ hj
    have hlen1 : (pre ++ [x]).length = pre.length + 1 := by simp
    have hassoc : (pre ++ [x]) ++ xs = pre ++ (x :: xs) := by simp
    by_cases hx : x < pre.getD bi 0
    · -- the new element strictly improves the best; restart at index pre.length
      have h1 : pre.length < (pre ++ [x]).length := by simp
      have h2 : ∀ j, j < (pre ++ [x]).length →
          (pre ++ [x]).getD pre.length 0 ≤ (pre ++ [x]).getD j 0 := by
        intro j hj
        rw [hgetx]
        rcases Nat.lt_or_ge j pre.length with hj2 | hj2
        · rw [hgetold j hj2]
          exact le_of_lt (lt_of_lt_of_le hx (hmin j hj2))
        · have : j = pre.length := by omega
          rw [this, hgetx]
      have h3 : ∀ j, j < pre.length →
          (pre ++ [x]).getD pre.length 0 < (pre ++ [x]).getD j 0 := by
        intro j hj
        rw [hgetx, hgetold j hj]
        exact lt_of_lt_of_le hx (hmin j hj)
      have := ih (pre ++ [x]) pre.length h1 (by rw [hgetx] at h2 ⊢; exact h2)
        (by rw [hgetx] at h3 ⊢; exact h3)
      rw [hassoc, hlen1, hgetx] at this
      simp only [minIdxGo]
      rw [if_pos hx]
      exact this
    · -- the best survives; the scanned prefix grows by one
      have h1 : bi < (pre ++ [x]).length := by simp; omega
      have hgetbi : (pre ++ [x]).getD bi 0 = pre.getD bi 0 := hgetold bi hbi
      have h2 : ∀ j, j < (pre ++ [x]).length →
          (pre ++ [x]).getD bi 0 ≤ (pre ++ [x]).getD j 0 := by
        intro j hj
        rw [hgetbi]
        rcases Nat.lt_or_ge j pre.length with hj2 | hj2
        · rw [hgetold j hj2]; exact hmin j hj2
        · have : j = pre.length := by omega
          rw [this, hgetx]; omega
      have h3 : ∀ j, j < bi →
          (pre ++ [x]).getD bi 0 < (pre ++ [x]).getD j 0 := by
        intro j hj
        rw [hgetbi, hgetold j (Nat.lt_trans hj hbi)]
        exact hfirst j hj
      have := ih (pre ++ [x]) bi h1 (by rw [hgetbi] at h2 ⊢; exact h2)
        (by rw [hgetbi] at h3 ⊢; exact h3)
      rw [hassoc, hlen1, hgetbi] at this
      simp only [minIdxGo]
      rw [if_neg hx]
      exact this

/- `minElementIdx` returns the index of the first minimal element. -/
theorem minElementIdx_spec (ct : List Int) (h : 0 < ct.length) :
    minElementIdx ct < ct.length ∧
    (∀ j, j < ct.length → ct.getD (minElementIdx ct) 0 ≤ ct.getD j 0) ∧
    (∀ j, j < minElementIdx ct → ct.getD (minElementIdx ct) 0 < ct.getD j 0) := by
  cases ct with
  | nil => simp at h
  | cons x xs =>
    have := minIdxGo_spec xs [x] 0 (by simp)
      (by intro j hj; simp at hj; subst hj; exact le_refl _)
      (by intro j hj; omega)
    simpa [minElementIdx] using this

/-- C7: in the greedy non-preemptive assignment shared by FCFS, Priority and
EDF, each scheduling step selects the core with the minimum current busy
time, breaking ties towards the lowest-indexed core (`std::min_element`
returns the first minimum), and writes `waitingTime` equal to the selected
core's busy time at the moment of selection (with
`turnaroundTime = waitingTime + burstTime`). -/
theorem greedy_min_core_selection (ct : List Int) (h : 0 < ct.length) :
    (minElementIdx ct < ct.length ∧
      (∀ j, j < ct.length → ct.getD (minElementIdx ct) 0 ≤ ct.getD j 0) ∧
      (∀ j, j < ct.length → ct.getD j 0 = ct.getD (minElementIdx ct) 0 →
        minElementIdx ct ≤ j)) ∧
    (∀ (p : Process) (rest : List Process) (charts : List (List (Int × Int))) (pw : ℚ),
      ((fcfsGo (p :: rest) ct charts pw).1.headD dummyProcess).coreId
        = (minElementIdx ct : Int) ∧
      ((fcfsGo (p :: rest) ct charts pw).1.headD dummyProcess).waitingTime
        = ct.getD (minElementIdx ct) 0 ∧
      ((fcfsGo (p :: rest) ct charts pw).1.headD dummyProcess).turnaroundTime
        = ct.getD (minElementIdx ct) 0 + p.burstTime) ∧
    (∀ (s : Process) (ss procs : List Process) (charts : List (List (Int × Int)))
        (pw : ℚ) (i : Nat),
      procs.findIdx? (fun q => decide (q.id = s.id)) = some i →
      priGo (s :: ss) procs ct charts pw = priGo ss
        (procs.set i { procs.getD i dummyProcess with
          coreId := (minElementIdx ct : Int)
          waitingTime := ct.getD (minElementIdx ct) 0
          turnaroundTime := ct.getD (minElementIdx ct) 0
            + (procs.getD i dummyProcess).burstTime })
        (listModify ct (minElementIdx ct) (· + (procs.getD i dummyProcess).burstTime))
        (listModify charts (minElementIdx ct)
          (· ++ [((procs.getD i dummyProcess).id, (procs.getD i dummyProcess).burstTime)]))
        (pw + (procs.getD i dummyProcess).powerConsumption)) ∧
    (∀ (s : Process) (ss procs : List Process) (charts : List (List (Int × Int)))
        (pw : ℚ) (misses : Int) (i : Nat),
      procs.findIdx? (fun q => decide (q.id = s.id)) = some i →
      edfGo (s :: ss) procs ct charts pw misses = edfGo ss
        (procs.set i { procs.getD i dummyProcess with
          coreId := (minElementIdx ct : Int)
          waitingTime := ct.getD (minElementIdx ct) 0
          turnaroundTime := ct.getD (minElementIdx ct) 0
            + (procs.getD i dummyProcess).burstTime })
        (listModify ct (minElementIdx ct) (· + (procs.getD i dummyProcess).burstTime))
        (listModify charts (minElementIdx ct)
          (· ++ [((procs.getD i dummyProcess).id, (procs.getD i dummyProcess).burstTime)]))
        (pw + (procs.getD i dummyProcess).powerConsumption)
        (if 0 < (procs.getD i dummyProcess).deadline ∧
            (procs.getD i dummyProcess).deadline
              < ct.getD (minElementIdx ct) 0 + (procs.getD i dummyProcess).burstTime
          then misses + 1 else misses)) := by
  obtain ⟨h1, h2, h3⟩ := minElementIdx_spec ct h
  refine ⟨⟨h1, h2, ?_⟩, ?_, ?_, ?_⟩
  · intro j hj hje
    by_contra hlt
    have := h3 j (by omega)
    omega
  · intro p rest charts pw
    refine ⟨rfl, rfl, rfl⟩
  · intro s ss procs charts pw i hfind
    simp only [priGo, hfind]
  · intro s ss procs charts pw misses i hfind
    simp only [edfGo, hfind]

/-- C7 witness: the selection facts instantiated at the busy-time list
`[2, 1, 1]`, whose first minimal element is at index 1. -/
theorem greedy_min_core_selection_witness :
    minElementIdx [(2 : Int), 1, 1] < 3 ∧
    (∀ j, j < 3 → List.getD [(2 : Int), 1, 1] j 0
        = List.getD [(2 : Int), 1, 1] (minElementIdx [(2 : Int), 1, 1]) 0 →
      minElementIdx [(2 : Int), 1, 1] ≤ j) :=
  ⟨(greedy_min_core_selection [2, 1, 1] (by decide)).1.1,
   (greedy_min_core_selection [2, 1, 1] (by decide)).1.2.2⟩

/-- C5 (code_bug): `reconfigure` performs no validation: called with the
out-of-range core count 0 on an engine holding one process, it clears the
process collection, resizes the timelines away and sets `numCores := 0`,
mutating every piece of existing state instead of rejecting the request. -/
theorem reconfigure_invalid_mutates_state :
    (reconfigure 0 preReconfigState).processes = [] ∧
    (reconfigure 0 preReconfigState).numCores = 0 ∧
    (reconfigure 0 preReconfigState).ganttCharts = [] ∧
    preReconfigState.processes ≠ [] ∧
    preReconfigState.numCores = 4 ∧
    preReconfigState.ganttCharts ≠ [] := by decide

/-- C6: on an empty process collection every policy entry point
(`runAndDisplay`'s `isEmpty` guard) is a no-op: the state is returned
unchanged, and in particular zero-valued default metrics stay at their
defaults. -/
theorem empty_collection_noop (st : SchedState) (tq : Int) (sorted : List Process)
    (hempty : st.processes = []) :
    runFCFS st = st ∧ runPriority sorted st = st ∧ runEDF sorted st = st ∧
    runRoundRobin tq st = some st ∧
    (st.metrics = SystemMetrics.init →
      (runFCFS st).metrics = SystemMetrics.init ∧
      (runPriority sorted st).metrics = SystemMetrics.init ∧
      (runEDF sorted st).metrics = SystemMetrics.init ∧
      ∀ st2, runRoundRobin tq st = some st2 → st2.metrics = SystemMetrics.init) := by
  have he : st.processes.isEmpty = true := by rw [hempty]; rfl
  refine ⟨?_, ?_, ?_, ?_, ?_⟩
  · simp [runFCFS, he]
  · simp [runPriority, he]
  · simp [runEDF, he]
  · simp [runRoundRobin, he]
  · intro hm
    refine ⟨by simp [runFCFS, he, hm], by simp [runPriority, he, hm],
      by simp [runEDF, he, hm], ?_⟩
    intro st2 h2
    simp only [runRoundRobin, he, if_pos] at h2
    cases h2
    exact hm

/-- C6 witness: the no-op facts instantiated on a concrete empty 2-core
engine with quantum 3. -/
theorem empty_collection_noop_witness :
    runFCFS emptyState = emptyState ∧ runRoundRobin 3 emptyState = some emptyState :=
  ⟨(empty_collection_noop emptyState 3 [] rfl).1,
   (empty_collection_noop emptyState 3 [] rfl).2.2.2.1⟩

theorem nodup_map_getD_inj {α β : Type} {l : List α} {f : α → β}
    (hnd : (l.map f).Nodup) {i j : Nat} (d : α)
    (hi : i < l.length) (hj : j < l.length)
    (hf : f (l.getD i d) = f (l.getD j d)) : i = j := by
  have hi2 : i < (l.map f).length := by simpa using hi
  have hj2 : j < (l.map f).length := by simpa using hj
  have : (l.map f)[i] = (l.map f)[j] := by
    simp only [List.getElem_map]
    rw [← List.getD_eq_getElem l d hi, ← List.getD_eq_getElem l d hj]
    exact hf
  exact (List.Nodup.getElem_inj_iff hnd).mp this

theorem fcfsGo_all (ps : List Process) :
    ∀ (ct : List Int) (charts : List (List (Int × Int))) (pw : ℚ),
      0 < ct.length → ∀ p ∈ (fcfsGo ps ct charts pw).1, GoodAssign ct.length p := by
  induction ps with
  | nil => intro ct charts pw hct p hp; simp [fcfsGo] at hp
  | cons q rest ih =>
    intro ct charts pw hct p hp
    obtain ⟨h1, _h2, _h3⟩ := minElementIdx_spec ct hct
    simp only [fcfsGo, List.mem_cons] at hp
    rcases hp with hp | hp
    · subst hp
      refine ⟨Int.ofNat_nonneg _, ?_, rfl⟩
      show ((minElementIdx ct : Nat) : Int) < (ct.length : Int)
      exact_mod_cast h1
    · have := ih (listModify ct (minElementIdx ct) (· + q.burstTime))
        (listModify charts (minElementIdx ct) (· ++ [(q.id, q.burstTime)]))
        (pw + q.powerConsumption) (by rw [listModify_length]; exact hct) p hp
      rwa [listModify_length] at this

/- `edfGo` only adds the deadline-miss counter to `priGo`: processes, busy
times, charts and power evolve identically. -/
theorem edfGo_components (ss : List Process) :
    ∀ (procs : List Process) (ct : List Int) (charts : List (List (Int × Int)))
      (pw : ℚ) (m : Int),
      (edfGo ss procs ct charts pw m).1 = (priGo ss procs ct charts pw).1 ∧
      (edfGo ss procs ct charts pw m).2.1 = (priGo ss procs ct charts pw).2.1 ∧
      (edfGo ss procs ct charts pw m).2.2.1 = (priGo ss procs ct charts pw).2.2.1 ∧
      (edfGo ss procs ct charts pw m).2.2.2.1 = (priGo ss procs ct charts pw).2.2.2 := by
  induction ss with
  | nil => intro procs ct charts pw m; exact ⟨rfl, rfl, rfl, rfl⟩
  | cons s ss ih =>
    intro procs ct charts pw m
    match hfind : procs.findIdx? (fun q => decide (q.id = s.id)) with
    | some i =>
      simp only [edfGo, priGo, hfind]
      exact ih _ _ _ _ _
    | none =>
      simp only [edfGo, priGo, hfind]
      exact ih _ _ _ _ _

theorem priGo_all (ss : List Process) :
    ∀ (procs : List Process) (ct : List Int) (charts : List (List (Int × Int))) (pw : ℚ),
      0 < ct.length →
      (procs.map (fun p => p.id)).Nodup →
      (∀ j, j < procs.length → GoodAssign ct.length (procs.getD j dummyProcess) ∨
        ∃ s ∈ ss, s.id = (procs.getD j dummyProcess).id) →
      ∀ p ∈ (priGo ss procs ct charts pw).1, GoodAssign ct.length p := by
  induction ss with
  | nil =>
    intro procs ct charts pw hct _hnd hinv p hp
    simp only [priGo] at hp
    obtain ⟨j, hj, rfl⟩ := List.getElem_of_mem hp
    have := hinv j hj
    rw [List.getD_eq_getElem procs dummyProcess hj] at this
    rcases this with hgood | ⟨s, hs, _⟩
    · exact hgood
    · simp at hs
  | cons s ss ih =>
    intro procs ct charts pw hct hnd hinv p hp
    match hfind : procs.findIdx? (fun q => decide (q.id = s.id)) with
    | none =>
      simp only [priGo, hfind] at hp
      refine ih procs ct charts pw hct hnd ?_ p hp
      intro j hj
      rcases hinv j hj with hgood | ⟨s2, hs2, hid⟩
      · exact Or.inl hgood
      · rcases List.mem_cons.mp hs2 with rfl | hmem
        · exfalso
          have hall := List.findIdx?_eq_none_iff.mp hfind
          have := hall (procs.getD j dummyProcess) (mem_getD_of_lt procs j dummyProcess hj)
          simp only [decide_eq_false_iff_not] at this
          exact this hid.symm
        · exact Or.inr ⟨s2, hmem, hid⟩
    | some i =>
      obtain ⟨hi, hpi, _⟩ := findIdx?_spec dummyProcess procs _ i hfind
      simp only [decide_eq_true_eq] at hpi
      simp only [priGo, hfind] at hp
      obtain ⟨h1, _, _⟩ := minElementIdx_spec ct hct
      have hres : GoodAssign (listModify ct (minElementIdx ct)
          (· + (procs.getD i dummyProcess).burstTime)).length p := by
        refine ih _ _ _ _ ?_ ?_ ?_ p hp
        · rwa [listModify_length]
        · rw [map_set_self procs i
            { procs.getD i dummyProcess with
              coreId := ((minElementIdx ct : Nat) : Int)
              waitingTime := ct.getD (minElementIdx ct) 0
              turnaroundTime := ct.getD (minElementIdx ct) 0
                + (procs.getD i dummyProcess).burstTime }
            (fun p => p.id) dummyProcess rfl]
          exact hnd
        · intro j hj
          rw [List.length_set] at hj
          rw [listModify_length]
          by_cases hij : i = j
          · subst hij
            left
            rw [getD_set_self procs i _ dummyProcess hi]
            refine ⟨Int.ofNat_nonneg _, ?_, rfl⟩
            show ((minElementIdx ct : Nat) : Int) < (ct.length : Int)
            exact_mod_cast h1
          · rw [getD_set_ne procs i j _ dummyProcess hij]
            rcases hinv j hj with hgood | ⟨s2, hs2, hid⟩
            · exact Or.inl hgood
            · rcases List.mem_cons.mp hs2 with rfl | hmem
              · exfalso
                exact hij (nodup_map_getD_inj hnd dummyProcess hi hj (by rw [hpi, hid]))
              · exact Or.inr ⟨s2, hmem, hid⟩
      rwa [listModify_length] at hres

theorem immutP_getD {l1 l2 : List Process} (h : l1.map immutP = l2.map immutP)
    (j : Nat) : immutP (l1.getD j dummyProcess) = immutP (l2.getD j dummyProcess) := by
  have h1 := List.getD_map l1 dummyProcess immutP (n := j)
  have h2 := List.getD_map l2 dummyProcess immutP (n := j)
  rw [← h1, ← h2, h]

theorem immutP_fields {p q : Process} (h : immutP p = immutP q) :
    p.id = q.id ∧ p.burstTime = q.burstTime ∧ p.priority = q.priority ∧
    p.deadline = q.deadline ∧ p.isRealTime = q.isRealTime ∧
    p.powerConsumption = q.powerConsumption := by
  simp only [immutP, Prod.mk.injEq] at h
  exact ⟨h.1, h.2.1, h.2.2.1, h.2.2.2.1, h.2.2.2.2.1, h.2.2.2.2.2⟩

theorem rrCoreStep_immut (tq : Int) (s : RRState) (core : Nat) :
    (rrCoreStep tq s core).procs.map immutP = s.procs.map immutP ∧
    (rrCoreStep tq s core).procs.length = s.procs.length ∧
    (rrCoreStep tq s core).charts.length = s.charts.length ∧
    (rrCoreStep tq s core).queues.length = s.queues.length ∧
    (rrCoreStep tq s core).coreTime.length = s.coreTime.length := by
  match hq : s.queues.getD core [] with
  | [] =>
    have hstep : rrCoreStep tq s core = s := by unfold rrCoreStep; rw [hq]
    rw [hstep]
    exact ⟨rfl, rfl, rfl, rfl, rfl⟩
  | j :: rest =>
    simp only [rrCoreStep, hq]
    split
    · refine ⟨?_, by simp, by rw [listModify_length], by simp, by rw [listModify_length]⟩
      exact map_set_self s.procs j _ immutP dummyProcess rfl
    · refine ⟨?_, by simp, by rw [listModify_length], by simp, by rw [listModify_length]⟩
      exact map_set_self s.procs j _ immutP dummyProcess rfl

theorem rrFold_immut (tq : Int) (cores : List Nat) :
    ∀ (s : RRState),
      (cores.foldl (rrCoreStep tq) s).procs.map immutP = s.procs.map immutP ∧
      (cores.foldl (rrCoreStep tq) s).procs.length = s.procs.length ∧
      (cores.foldl (rrCoreStep tq) s).charts.length = s.charts.length ∧
      (cores.foldl (rrCoreStep tq) s).queues.length = s.queues.length ∧
      (cores.foldl (rrCoreStep tq) s).coreTime.length = s.coreTime.length := by
  induction cores with
  | nil => intro s; exact ⟨rfl, rfl, rfl, rfl, rfl⟩
  | cons c cs ih =>
    intro s
    obtain ⟨i1, i2, i3, i4, i5⟩ := ih (rrCoreStep tq s c)
    obtain ⟨j1, j2, j3, j4, j5⟩ := rrCoreStep_immut tq s c
    simp only [List.foldl_cons]
    exact ⟨i1.trans j1, i2.trans j2, i3.trans j3, i4.trans j4, i5.trans j5⟩

theorem rrLoop_immut (tq : Int) (nc : Nat) :
    ∀ (fuel : Nat) (s s2 : RRState), rrLoop tq nc fuel s = some s2 →
      s2.procs.map immutP = s.procs.map immutP ∧
      s2.procs.length = s.procs.length ∧
      s2.charts.length = s.charts.length ∧
      s2.queues.length = s.queues.length ∧
      s2.coreTime.length = s.coreTime.length := by
  intro fuel
  induction fuel with
  | zero =>
    intro s s2 h
    simp only [rrLoop] at h
    split at h
    · cases h; exact ⟨rfl, rfl, rfl, rfl, rfl⟩
    · cases h
  | succ fuel ih =>
    intro s s2 h
    simp only [rrLoop] at h
    split at h
    · cases h; exact ⟨rfl, rfl, rfl, rfl, rfl⟩
    · obtain ⟨i1, i2, i3, i4, i5⟩ := ih (rrPass tq nc s) s2 h
      obtain ⟨j1, j2, j3, j4, j5⟩ := rrFold_immut tq (List.range nc) s
      exact ⟨i1.trans j1, i2.trans j2, i3.trans j3, i4.trans j4, i5.trans j5⟩

/- Characterization of one round-robin core step when the popped process
still has remaining work after its slice (re-enqueue branch). -/
theorem rrCoreStep_eq_pos (tq : Int) (s : RRState) (core j : Nat) (rest : List Nat)
    (hq : s.queues.getD core [] = j :: rest)
    (hrem : 0 < (s.procs.getD j dummyProcess).remainingTime
      - min tq (s.procs.getD j dummyProcess).remainingTime) :
    rrCoreStep tq s core =
      { procs := s.procs.set j { s.procs.getD j dummyProcess with
          remainingTime := (s.procs.getD j dummyProcess).remainingTime
            - min tq (s.procs.getD j dummyProcess).remainingTime }
        queues := s.queues.set core (rest ++ [j])
        coreTime := listModify s.coreTime core
          (· + min tq (s.procs.getD j dummyProcess).remainingTime)
        charts := listModify s.charts core
          (· ++ [((s.procs.getD j dummyProcess).id,
                  min tq (s.procs.getD j dummyProcess).remainingTime)])
        power := s.power } := by
  unfold rrCoreStep
  rw [hq]
  dsimp only
  rw [if_pos hrem]

/- Characterization of one round-robin core step when the popped process
completes within its slice (finalization branch). -/
theorem rrCoreStep_eq_fin (tq : Int) (s : RRState) (core j : Nat) (rest : List Nat)
    (hq : s.queues.getD core [] = j :: rest)
    (hrem : ¬ 0 < (s.procs.getD j dummyProcess).remainingTime
      - min tq (s.procs.getD j dummyProcess).remainingTime) :
    rrCoreStep tq s core =
      { procs := s.procs.set j { s.procs.getD j dummyProcess with
          remainingTime := (s.procs.getD j dummyProcess).remainingTime
            - min tq (s.procs.getD j dummyProcess).remainingTime
          coreId := (core : Int)
          turnaroundTime := (listModify s.coreTime core
            (· + min tq (s.procs.getD j dummyProcess).remainingTime)).getD core 0
          waitingTime := (listModify s.coreTime core
            (· + min tq (s.procs.getD j dummyProcess).remainingTime)).getD core 0
            - (s.procs.getD j dummyProcess).burstTime }
        queues := s.queues.set core rest
        coreTime := listModify s.coreTime core
          (· + min tq (s.procs.getD j dummyProcess).remainingTime)
        charts := listModify s.charts core
          (· ++ [((s.procs.getD j dummyProcess).id,
                  min tq (s.procs.getD j dummyProcess).remainingTime)])
        power := s.power + (s.procs.getD j dummyProcess).powerConsumption } := by
  unfold rrCoreStep
  rw [hq]
  dsimp only
  rw [if_neg hrem]

theorem mem_listModify_append {α : Type} (l : List (List α)) (i c : Nat) (x : α)
    (xs : List α) (h : x ∈ l.getD c []) : x ∈ (listModify l i (· ++ xs)).getD c [] := by
  by_cases hic : i = c
  · subst hic
    by_cases hl : i < l.length
    · rw [listModify_getD_self l i _ [] hl]
      exact List.mem_append.mpr (Or.inl h)
    · rw [List.getD_eq_default l [] (by omega)] at h
      cases h
  · rw [listModify_getD_ne l i c _ [] hic]
    exact h

theorem rrCoreStep_inv (tq : Int) (nc : Nat) (ps0 : List Process) (s : RRState)
    (core : Nat) (hcore : core < nc) (hinv : RRInv tq nc ps0 s) :
    RRInv tq nc ps0 (rrCoreStep tq s core) := by
  obtain ⟨hlen, himm, hql, hcl, hqf, hdisj⟩ := hinv
  match hq : s.queues.getD core [] with
  | [] =>
    have hstep : rrCoreStep tq s core = s := by unfold rrCoreStep; rw [hq]
    rw [hstep]
    exact ⟨hlen, himm, hql, hcl, hqf, hdisj⟩
  | j :: rest =>
    obtain ⟨hjlt, hjmod, hjz⟩ := hqf core hcore j (by rw [hq]; exact List.mem_cons_self _ _)
    have hjlt2 : j < s.procs.length := by rw [hlen]; exact hjlt
    have hqlt : core < s.queues.length := by rw [hql]; exact hcore
    have hclt : core < s.charts.length := lt_of_lt_of_le hcore hcl
    obtain ⟨hid, hburst, _, _, _, hpow⟩ := immutP_fields (immutP_getD himm j)
    by_cases hrem : 0 < (s.procs.getD j dummyProcess).remainingTime
        - min tq (s.procs.getD j dummyProcess).remainingTime
    · rw [rrCoreStep_eq_pos tq s core j rest hq hrem]
      refine ⟨by simpa using hlen, ?_, by simpa using hql, by rw [listModify_length]; exact hcl,
        ?_, ?_⟩
      · rw [map_set_self s.procs j
          { s.procs.getD j dummyProcess with
            remainingTime := (s.procs.getD j dummyProcess).remainingTime
              - min tq (s.procs.getD j dummyProcess).remainingTime }
          immutP dummyProcess rfl]
        exact himm
      · -- queue facts
        intro c hc j2 hj2
        by_cases hcc : core = c
        · subst hcc
          rw [getD_set_self s.queues core _ [] hqlt] at hj2
          have hfact : j2 ∈ rest → j2 < ps0.length ∧ j2 % nc = core ∧
              ((1 ≤ tq ∧ (ps0.getD j2 dummyProcess).burstTime = 0) →
                ((s.procs.set j { s.procs.getD j dummyProcess with
                  remainingTime := (s.procs.getD j dummyProcess).remainingTime
                    - min tq (s.procs.getD j dummyProcess).remainingTime }).getD j2
                  dummyProcess).remainingTime = 0) := by
            intro hj2r
            obtain ⟨a1, a2, a3⟩ := hqf core hcore j2
              (by rw [hq]; exact List.mem_cons_of_mem _ hj2r)
            refine ⟨a1, a2, ?_⟩
            intro hcond
            by_cases hjj : j = j2
            · exfalso
              subst hjj
              have h0 := hjz hcond
              have htq1 := hcond.1
              omega
            · rw [getD_set_ne s.procs j j2 _ dummyProcess hjj]
              exact a3 hcond
          rcases List.mem_append.mp hj2 with hj2r | hj2j
          · exact hfact hj2r
          · have hje : j2 = j := by simpa using hj2j
            subst hje
            refine ⟨hjlt, hjmod, ?_⟩
            intro hcond
            exfalso
            have h0 := hjz hcond
            have htq1 := hcond.1
            omega
        · rw [getD_set_ne s.queues core c _ [] hcc] at hj2
          obtain ⟨a1, a2, a3⟩ := hqf c hc j2 hj2
          refine ⟨a1, a2, ?_⟩
          intro hcond
          by_cases hjj : j = j2
          · exfalso
            subst hjj
            exact hcc (hjmod ▸ a2)
          · rw [getD_set_ne s.procs j j2 _ dummyProcess hjj]
            exact a3 hcond
      · -- queued-or-finalized
        intro j2 hj2
        rcases hdisj j2 hj2 with ⟨c, hc, hmem⟩ | hfin
        · by_cases hcc : core = c
          · subst hcc
            rw [hq] at hmem
            left
            refine ⟨core, hcore, ?_⟩
            rw [getD_set_self s.queues core _ [] hqlt]
            rcases List.mem_cons.mp hmem with hje | hmemr
            · subst hje
              exact List.mem_append.mpr (Or.inr (by simp))
            · exact List.mem_append.mpr (Or.inl hmemr)
          · left
            refine ⟨c, hc, ?_⟩
            rw [getD_set_ne s.queues core c _ [] hcc]
            exact hmem
        · right
          obtain ⟨f1, f2, f3⟩ := hfin
          by_cases hjj : j = j2
          · subst hjj
            refine ⟨?_, ?_, ?_⟩
            · rw [getD_set_self s.procs j _ dummyProcess hjlt2]
              exact f1
            · rw [getD_set_self s.procs j _ dummyProcess hjlt2]
              exact f2
            · intro hcond
              exact mem_listModify_append s.charts core (j % nc) _ _ (f3 hcond)
          · refine ⟨?_, ?_, ?_⟩
            · rw [getD_set_ne s.procs j j2 _ dummyProcess hjj]
              exact f1
            · rw [getD_set_ne s.procs j j2 _ dummyProcess hjj]
              exact f2
            · intro hcond
              exact mem_listModify_append s.charts core (j2 % nc) _ _ (f3 hcond)
    · rw [rrCoreStep_eq_fin tq s core j rest hq hrem]
      refine ⟨by simpa using hlen, ?_, by simpa using hql, by rw [listModify_length]; exact hcl,
        ?_, ?_⟩
      · rw [map_set_self s.procs j
          { s.procs.getD j dummyProcess with
            remainingTime := (s.procs.getD j dummyProcess).remainingTime
              - min tq (s.procs.getD j dummyProcess).remainingTime
            coreId := (core : Int)
            turnaroundTime := (listModify s.coreTime core
              (· + min tq (s.procs.getD j dummyProcess).remainingTime)).getD core 0
            waitingTime := (listModify s.coreTime core
              (· + min tq (s.procs.getD j dummyProcess).remainingTime)).getD core 0
              - (s.procs.getD j dummyProcess).burstTime }
          immutP dummyProcess rfl]
        exact himm
      · -- queue facts
        intro c hc j2 hj2
        by_cases hcc : core = c
        · subst hcc
          rw [getD_set_self s.queues core _ [] hqlt] at hj2
          obtain ⟨a1, a2, a3⟩ := hqf core hcore j2
            (by rw [hq]; exact List.mem_cons_of_mem _ hj2)
          refine ⟨a1, a2, ?_⟩
          intro hcond
          by_cases hjj : j = j2
          · subst hjj
            rw [getD_set_self s.procs j _ dummyProcess hjlt2]
            have h0 := hjz hcond
            have htq1 := hcond.1
            dsimp only
            omega
          · rw [getD_set_ne s.procs j j2 _ dummyProcess hjj]
            exact a3 hcond
        · rw [getD_set_ne s.queues core c _ [] hcc] at hj2
          obtain ⟨a1, a2, a3⟩ := hqf c hc j2 hj2
          refine ⟨a1, a2, ?_⟩
          intro hcond
          by_cases hjj : j = j2
          · exfalso
            subst hjj
            exact hcc (hjmod ▸ a2)
          · rw [getD_set_ne s.procs j j2 _ dummyProcess hjj]
            exact a3 hcond
      · -- queued-or-finalized
        intro j2 hj2
        by_cases hjj : j = j2
        · subst hjj
          right
          refine ⟨?_, ?_, ?_⟩
          · rw [getD_set_self s.procs j _ dummyProcess hjlt2]
            rw [hjmod]
          · rw [getD_set_self s.procs j _ dummyProcess hjlt2]
            dsimp only
            omega
          · intro hcond
            have h0 := hjz hcond
            have htq1 := hcond.1
            have hmin0 : min tq (s.procs.getD j dummyProcess).remainingTime = 0 := by omega
            rw [hjmod, listModify_getD_self s.charts core _ [] hclt]
            rw [hmin0, hid]
            exact List.mem_append.mpr (Or.inr (by simp))
        · rcases hdisj j2 hj2 with ⟨c, hc, hmem⟩ | hfin
          · by_cases hcc : core = c
            · subst hcc
              rw [hq] at hmem
              rcases List.mem_cons.mp hmem with hje | hmemr
              · exact absurd hje.symm hjj
              · left
                refine ⟨core, hcore, ?_⟩
                rw [getD_set_self s.queues core _ [] hqlt]
                exact hmemr
            · left
              refine ⟨c, hc, ?_⟩
              rw [getD_set_ne s.queues core c _ [] hcc]
              exact hmem
          · right
            obtain ⟨f1, f2, f3⟩ := hfin
            refine ⟨?_, ?_, ?_⟩
            · rw [getD_set_ne s.procs j j2 _ dummyProcess hjj]
              exact f1
            · rw [getD_set_ne s.procs j j2 _ dummyProcess hjj]
              exact f2
            · intro hcond
              exact mem_listModify_append s.charts core (j2 % nc) _ _ (f3 hcond)

theorem rrFold_inv (tq : Int) (nc : Nat) (ps0 : List Process) (cores : List Nat) :
    (∀ c ∈ cores, c < nc) → ∀ s : RRState, RRInv tq nc ps0 s →
      RRInv tq nc ps0 (cores.foldl (rrCoreStep tq) s) := by
  induction cores with
  | nil => intro _ s hinv; exact hinv
  | cons c cs ih =>
    intro hall s hinv
    simp only [List.foldl_cons]
    exact ih (fun c2 hc2 => hall c2 (List.mem_cons_of_mem _ hc2))
      (rrCoreStep tq s c) (rrCoreStep_inv tq nc ps0 s c (hall c (List.mem_cons_self _ _)) hinv)

theorem rrLoop_inv (tq : Int) (nc : Nat) (ps0 : List Process) :
    ∀ (fuel : Nat) (s s2 : RRState), rrLoop tq nc fuel s = some s2 →
      RRInv tq nc ps0 s →
      RRInv tq nc ps0 s2 ∧ s2.queues.all List.isEmpty = true := by
  intro fuel
  induction fuel with
  | zero =>
    intro s s2 h hinv
    simp only [rrLoop] at h
    split at h
    · rename_i hc
      cases h
      exact ⟨hinv, hc⟩
    · cases h
  | succ fuel ih =>
    intro s s2 h hinv
    simp only [rrLoop] at h
    split at h
    · rename_i hc
      cases h
      exact ⟨hinv, hc⟩
    · exact ih (rrPass tq nc s) s2 h
        (rrFold_inv tq nc ps0 (List.range nc) (fun c hc => List.mem_range.mp hc) s hinv)

theorem buildQueues_length (n nc : Nat) : (buildQueues n nc).length = nc := by
  simp [buildQueues]

theorem buildQueues_getD (n nc c : Nat) (hc : c < nc) :
    (buildQueues n nc).getD c [] = (List.range n).filter (fun j => decide (j % nc = c)) := by
  unfold buildQueues
  rw [List.getD_eq_getElem _ _ (by simpa using hc)]
  simp

theorem rr_init_inv (tq : Int) (nc : Nat) (ps0 : List Process)
    (charts0 : List (List (Int × Int))) (hnc : 0 < nc) (hcl : nc ≤ charts0.length)
    (hrem : ∀ j, j < ps0.length → (ps0.getD j dummyProcess).remainingTime
      = (ps0.getD j dummyProcess).burstTime) :
    RRInv tq nc ps0
      { procs := ps0, queues := buildQueues ps0.length nc,
        coreTime := List.replicate nc 0, charts := charts0, power := 0 } := by
  refine ⟨rfl, rfl, buildQueues_length _ _, hcl, ?_, ?_⟩
  · intro c hc j hj
    rw [buildQueues_getD _ _ c hc] at hj
    have := List.mem_filter.mp hj
    have hjn : j < ps0.length := List.mem_range.mp this.1
    have hjc : j % nc = c := by simpa using this.2
    refine ⟨hjn, hjc, ?_⟩
    intro hcond
    rw [hrem j hjn]
    exact hcond.2
  · intro j hj
    left
    refine ⟨j % nc, Nat.mod_lt j hnc, ?_⟩
    rw [buildQueues_getD _ _ (j % nc) (Nat.mod_lt j hnc)]
    exact List.mem_filter.mpr ⟨List.mem_range.mpr hj, by simp⟩

theorem queues_empty_getD {qs : List (List Nat)} (hall : qs.all List.isEmpty = true)
    (c : Nat) : qs.getD c [] = [] := by
  by_cases hc : c < qs.length
  · have hmem : qs.getD c [] ∈ qs := mem_getD_of_lt qs c [] hc
    have := List.all_eq_true.mp hall _ hmem
    exact List.isEmpty_iff.mp this
  · exact List.getD_eq_default qs [] (by omega)

theorem rrCore_fin (tq : Int) (s0 st2 : SchedState)
    (hnc : 0 < s0.numCores.toNat)
    (hcl : s0.numCores.toNat ≤ s0.ganttCharts.length)
    (hrem : ∀ j, j < s0.processes.length →
      (s0.processes.getD j dummyProcess).remainingTime
        = (s0.processes.getD j dummyProcess).burstTime)
    (hrun : rrCore tq s0 = some st2) :
    st2.numCores = s0.numCores ∧
    st2.processes.length = s0.processes.length ∧
    st2.processes.map immutP = s0.processes.map immutP ∧
    st2.ganttCharts.length = s0.ganttCharts.length ∧
    (∀ j, j < s0.processes.length →
      (st2.processes.getD j dummyProcess).coreId = ((j % s0.numCores.toNat : Nat) : Int) ∧
      (st2.processes.getD j dummyProcess).turnaroundTime
        = (st2.processes.getD j dummyProcess).waitingTime
          + (st2.processes.getD j dummyProcess).burstTime ∧
      ((1 ≤ tq ∧ (s0.processes.getD j dummyProcess).burstTime = 0) →
        ((s0.processes.getD j dummyProcess).id, 0)
          ∈ st2.ganttCharts.getD (j % s0.numCores.toNat) [])) := by
  unfold rrCore at hrun
  dsimp only at hrun
  match hloop : rrLoop tq s0.numCores.toNat (rrFuel s0.processes)
      { procs := s0.processes, queues := buildQueues s0.processes.length s0.numCores.toNat,
        coreTime := List.replicate s0.numCores.toNat 0, charts := s0.ganttCharts,
        power := 0 } with
  | none => rw [hloop] at hrun; cases hrun
  | some s =>
    rw [hloop] at hrun
    have hst2 := (Option.some.injEq _ _).mp hrun
    obtain ⟨hinv, hempty⟩ := rrLoop_inv tq s0.numCores.toNat s0.processes _ _ s hloop
      (rr_init_inv tq s0.numCores.toNat s0.processes s0.ganttCharts hnc hcl hrem)
    obtain ⟨hlen, himm, _, _, _, hdisj⟩ := hinv
    obtain ⟨l1, l2, l3, l4, l5⟩ := rrLoop_immut tq s0.numCores.toNat _ _ s hloop
    have hprocs : st2.processes = s.procs := by rw [← hst2]
    have hcharts : st2.ganttCharts = s.charts := by rw [← hst2]
    have hcores : st2.numCores = s0.numCores := by rw [← hst2]
    refine ⟨hcores, by rw [hprocs, hlen], by rw [hprocs]; exact himm,
      by rw [hcharts]; exact l3, ?_⟩
    intro j hj
    rcases hdisj j hj with ⟨c, _, hmem⟩ | hfin
    · rw [queues_empty_getD hempty c] at hmem
      cases hmem
    · obtain ⟨f1, f2, f3⟩ := hfin
      rw [hprocs, hcharts]
      exact ⟨f1, f2, f3⟩

/-- C1 (amended): on a well-formed engine (at least one core, one timeline
per core) whose processes have pairwise-distinct ids, after any completed
policy run — FCFS, Priority (for any admissible `std::sort` output), EDF
(likewise), or Round-Robin — every process ends with `coreId ∈ [0, numCores)`
and `turnaroundTime = waitingTime + burstTime`.  (As stated over *any*
process set the claim is false: with duplicate ids Priority/EDF leave later
duplicates unassigned, see the counterexample.) -/
theorem policies_assign_all (st : SchedState)
    (hnc : 1 ≤ st.numCores)
    (hwf : st.ganttCharts.length = st.numCores.toNat)
    (hids : (st.processes.map (fun p => p.id)).Nodup) :
    (∀ p ∈ (multiCoreFCFS st).processes,
      0 ≤ p.coreId ∧ p.coreId < st.numCores ∧
      p.turnaroundTime = p.waitingTime + p.burstTime) ∧
    (∀ sorted, (sorted.map (fun p => p.id)).Perm (st.processes.map (fun p => p.id)) →
      ∀ p ∈ (priorityScheduling sorted st).processes,
        0 ≤ p.coreId ∧ p.coreId < st.numCores ∧
        p.turnaroundTime = p.waitingTime + p.burstTime) ∧
    (∀ sorted, (sorted.map (fun p => p.id)).Perm (st.processes.map (fun p => p.id)) →
      ∀ p ∈ (edfScheduling sorted st).processes,
        0 ≤ p.coreId ∧ p.coreId < st.numCores ∧
        p.turnaroundTime = p.waitingTime + p.burstTime) ∧
    (∀ (tq : Int) (st2 : SchedState), multiCoreRoundRobin tq st = some st2 →
      ∀ p ∈ st2.processes,
        0 ≤ p.coreId ∧ p.coreId < st.numCores ∧
        p.turnaroundTime = p.waitingTime + p.burstTime) := by
  have hnn : (0 : Int) ≤ st.numCores := by omega
  have hcast : ((st.numCores.toNat : Nat) : Int) = st.numCores := Int.toNat_of_nonneg hnn
  have h0 : 0 < st.numCores.toNat := by omega
  have hids0 : ((resetProcessesState st).processes.map (fun p => p.id))
      = st.processes.map (fun p => p.id) := by
    show ((st.processes.map resetProcess).map (fun p => p.id)) = _
    rw [List.map_map]
    rfl
  have hgood : ∀ p : Process,
      GoodAssign (List.replicate st.numCores.toNat (0 : Int)).length p →
      0 ≤ p.coreId ∧ p.coreId < st.numCores ∧
      p.turnaroundTime = p.waitingTime + p.burstTime := by
    intro p hg
    obtain ⟨g1, g2, g3⟩ := hg
    rw [List.length_replicate, hcast] at g2
    exact ⟨g1, g2, g3⟩
  have hinv0 : ∀ sorted : List Process,
      (sorted.map (fun p => p.id)).Perm (st.processes.map (fun p => p.id)) →
      ∀ j, j < (resetProcessesState st).processes.length →
        GoodAssign (List.replicate st.numCores.toNat (0 : Int)).length
          ((resetProcessesState st).processes.getD j dummyProcess) ∨
        ∃ s ∈ sorted, s.id = ((resetProcessesState st).processes.getD j dummyProcess).id := by
    intro sorted hperm j hj
    right
    have hmem : ((resetProcessesState st).processes.getD j dummyProcess).id
        ∈ (resetProcessesState st).processes.map (fun p => p.id) :=
      List.mem_map_of_mem _ (mem_getD_of_lt _ j dummyProcess hj)
    rw [hids0] at hmem
    have := hperm.mem_iff.mpr hmem
    obtain ⟨s, hs, hsid⟩ := List.mem_map.mp this
    exact ⟨s, hs, hsid⟩
  refine ⟨?_, ?_, ?_, ?_⟩
  · intro p hp
    exact hgood p (fcfsGo_all (resetProcessesState st).processes
      (List.replicate st.numCores.toNat 0) (resetProcessesState st).ganttCharts 0
      (by simpa using h0) p hp)
  · intro sorted hperm p hp
    refine hgood p (priGo_all sorted (resetProcessesState st).processes
      (List.replicate st.numCores.toNat 0) (resetProcessesState st).ganttCharts 0
      (by simpa using h0) (by rw [hids0]; exact hids) (hinv0 sorted hperm) p hp)
  · intro sorted hperm p hp
    have heq : (edfScheduling sorted st).processes
        = (edfGo sorted (resetProcessesState st).processes
          (List.replicate st.numCores.toNat 0) (resetProcessesState st).ganttCharts 0 0).1 := rfl
    rw [heq, (edfGo_components sorted (resetProcessesState st).processes
      (List.replicate st.numCores.toNat 0) (resetProcessesState st).ganttCharts 0 0).1] at hp
    refine hgood p (priGo_all sorted (resetProcessesState st).processes
      (List.replicate st.numCores.toNat 0) (resetProcessesState st).ganttCharts 0
      (by simpa using h0) (by rw [hids0]; exact hids) (hinv0 sorted hperm) p hp)
  · intro tq st2 hrun
    have hfin := rrCore_fin tq (resetProcessesState st) st2
      (by show 0 < st.numCores.toNat; omega)
      (by show st.numCores.toNat ≤ (st.ganttCharts.map (fun _ => ([] : List (Int × Int)))).length
          rw [List.length_map, hwf])
      (by intro j hj
          show ((st.processes.map resetProcess).getD j dummyProcess).remainingTime
            = ((st.processes.map resetProcess).getD j dummyProcess).burstTime
          have hrd : resetProcess dummyProcess = dummyProcess := rfl
          rw [← hrd, List.getD_map]
          rfl)
      hrun
    obtain ⟨_, hlen, _, _, hall⟩ := hfin
    intro p hp
    obtain ⟨j, hj, hpj⟩ := List.getElem_of_mem hp
    have hj2 : j < (resetProcessesState st).processes.length := by
      rw [← hlen]
      exact hj
    obtain ⟨f1, f2, _⟩ := hall j hj2
    rw [List.getD_eq_getElem st2.processes dummyProcess hj, hpj] at f1 f2
    have hmod : j % st.numCores.toNat < st.numCores.toNat := Nat.mod_lt j h0
    refine ⟨?_, ?_, f2⟩
    · rw [f1]
      exact Int.ofNat_nonneg _
    · rw [f1, ← hcast]
      exact_mod_cast hmod


/-- C1 counterexample: on two processes sharing id 1 (priorities 1 < 2, so
the sort order shown is the only admissible `std::sort` output),
`priorityScheduling` writes both passes into the first process and leaves
the second with `coreId = -1 ∉ [0, 1)` and
`turnaroundTime = 0 ≠ 0 + 3 = waitingTime + burstTime`. -/
theorem policies_assign_all_cex :
    SortSpecPriority (dupIdState.processes.map resetProcess) dupIdSorted ∧
    ((priorityScheduling dupIdSorted dupIdState).processes.map
      (fun p => (p.coreId, p.waitingTime, p.turnaroundTime, p.burstTime)))
      = [(0, 5, 10, 5), (-1, 0, 0, 3)] ∧
    ¬ ((0 : Int) ≤ -1) ∧ ¬ ((0 : Int) = 0 + 3) := by
  refine ⟨⟨List.Perm.refl _, ?_⟩, by decide, by decide, by decide⟩
  refine List.Pairwise.cons ?_ (List.Pairwise.cons ?_ List.Pairwise.nil)
  · intro b hb
    have : b = resetProcess (mkProcess 1 3 2 10 false) := by
      simpa [dupIdSorted, dupIdState] using hb
    subst this
    decide
  · intro b hb
    simp [dupIdSorted, dupIdState] at hb

/-- C1 witness: the amended theorem applied to a concrete well-formed
two-core engine with distinct ids; the FCFS conjunct instantiated. -/
theorem policies_assign_all_witness :
    (1 : Int) ≤ witnessState.numCores ∧
    (∀ p ∈ (multiCoreFCFS witnessState).processes,
      0 ≤ p.coreId ∧ p.coreId < witnessState.numCores ∧
      p.turnaroundTime = p.waitingTime + p.burstTime) :=
  ⟨by decide, (policies_assign_all witnessState (by decide) (by decide) (by decide)).1⟩

/-- C2 (code_bug): `multiCoreRoundRobin` performs no quantum validation.
With quantum 0 and a burst-1 process the slice length is
`min(0, remainingTime) = 0`, `remainingTime` never decreases, the process is
re-enqueued forever and the `while` loop never terminates: for every fuel
value the loop fails to complete, so the embedded entry point reports
divergence (`none`) instead of the rejection the spec requires. -/
theorem rr_quantum_zero_diverges :
    (∀ (fuel : Nat) (t : Int) (c : List (Int × Int)) (pw : ℚ),
      rrLoop 0 1 fuel
        { procs := [resetProcess (mkProcess 1 1 128 0 false)], queues := [[0]],
          coreTime := [t], charts := [c], power := pw } = none) ∧
    multiCoreRoundRobin 0 quantumZeroState = none := by
  constructor
  · intro fuel
    induction fuel with
    | zero => intro t c pw; rfl
    | succ fuel ih =>
      intro t c pw
      have hpass : rrPass 0 1
          { procs := [resetProcess (mkProcess 1 1 128 0 false)], queues := [[0]],
            coreTime := [t], charts := [c], power := pw }
          = rrCoreStep 0
            { procs := [resetProcess (mkProcess 1 1 128 0 false)], queues := [[0]],
              coreTime := [t], charts := [c], power := pw } 0 := rfl
      have hstep := rrCoreStep_eq_pos 0
        { procs := [resetProcess (mkProcess 1 1 128 0 false)], queues := [[0]],
          coreTime := [t], charts := [c], power := pw } 0 0 [] rfl
        (by show (0 : Int) < 1 - min 0 1; decide)
      have e1 : ([resetProcess (mkProcess 1 1 128 0 false)]).set 0
          { ([resetProcess (mkProcess 1 1 128 0 false)]).getD 0 dummyProcess with
            remainingTime := (([resetProcess (mkProcess 1 1 128 0 false)]).getD 0
                dummyProcess).remainingTime
              - min 0 (([resetProcess (mkProcess 1 1 128 0 false)]).getD 0
                dummyProcess).remainingTime }
          = [resetProcess (mkProcess 1 1 128 0 false)] := rfl
      have e2 : ([[(0 : Nat)]]).set 0 (([] : List Nat) ++ [0]) = [[0]] := rfl
      have e3 : listModify [t] 0
          (· + min 0 (([resetProcess (mkProcess 1 1 128 0 false)]).getD 0
            dummyProcess).remainingTime) = [t + 0] := rfl
      have e4 : listModify [c] 0
          (· ++ [((([resetProcess (mkProcess 1 1 128 0 false)]).getD 0 dummyProcess).id,
            min 0 (([resetProcess (mkProcess 1 1 128 0 false)]).getD 0
              dummyProcess).remainingTime)]) = [c ++ [(1, 0)]] := rfl
      show rrLoop 0 1 (fuel + 1) _ = none
      simp only [rrLoop]
      rw [if_neg (by decide)]
      rw [hpass, hstep, e1, e2, e3, e4]
      exact ih (t + 0) (c ++ [(1, 0)]) pw
  · decide

/-- C4 counterexample: running round-robin with quantum 1 on a single
zero-burst process: the process IS scheduled (one zero-duration slice is
appended to its core's timeline) and IS finalized (`coreId = 0`, not `-1`),
contradicting the claim that it is never scheduled and never finalized. -/
theorem rr_zero_burst_cex :
    (multiCoreRoundRobin 1 zeroBurstState).map (fun s => s.ganttCharts)
      = some [[(7, 0)]] ∧
    (multiCoreRoundRobin 1 zeroBurstState).map
      (fun s => s.processes.map (fun p => (p.coreId, p.waitingTime, p.turnaroundTime)))
      = some [(0, 0, 0)] ∧
    some [[((7 : Int), (0 : Int))]] ≠ some ([[]] : List (List (Int × Int))) ∧
    ((0 : Int), (0 : Int), (0 : Int)) ≠ ((-1 : Int), (0 : Int), (0 : Int)) := by
  refine ⟨by decide, by decide, by decide, by decide⟩

/-- C4 (amended): in a completed `multiCoreRoundRobin` run with a positive
quantum on a well-formed engine, a process whose `remainingTime` is 0 at
reset (zero burst) IS scheduled a zero-duration slice — `(id, 0)` appears on
its static core's timeline — and IS finalized: `coreId` is set to its static
core `j % numCores` and `waitingTime = turnaroundTime` (the core's busy time
at the moment it was popped). -/
theorem rr_zero_burst_finalized (st : SchedState) (tq : Int) (st2 : SchedState)
    (hnc : 1 ≤ st.numCores) (htq : 1 ≤ tq)
    (hwf : st.ganttCharts.length = st.numCores.toNat)
    (hrun : multiCoreRoundRobin tq st = some st2) :
    ∀ j, j < st.processes.length →
      (st.processes.getD j dummyProcess).burstTime = 0 →
      (st2.processes.getD j dummyProcess).coreId
        = ((j % st.numCores.toNat : Nat) : Int) ∧
      (st2.processes.getD j dummyProcess).waitingTime
        = (st2.processes.getD j dummyProcess).turnaroundTime ∧
      ((st.processes.getD j dummyProcess).id, 0)
        ∈ st2.ganttCharts.getD (j % st.numCores.toNat) [] := by
  have hrd : resetProcess dummyProcess = dummyProcess := rfl
  have hgetD : ∀ j, (resetProcessesState st).processes.getD j dummyProcess
      = resetProcess (st.processes.getD j dummyProcess) := by
    intro j
    show ((st.processes.map resetProcess).getD j dummyProcess) = _
    rw [← hrd, List.getD_map]
    rw [hrd]
  have hfin := rrCore_fin tq (resetProcessesState st) st2
    (by show 0 < st.numCores.toNat; omega)
    (by show st.numCores.toNat ≤ (st.ganttCharts.map (fun _ => ([] : List (Int × Int)))).length
        rw [List.length_map, hwf])
    (by intro j hj
        rw [hgetD j]
        rfl)
    hrun
  obtain ⟨_, hlen, himm, _, hall⟩ := hfin
  intro j hj hburst0
  have hj0 : j < (resetProcessesState st).processes.length := by
    show j < (st.processes.map resetProcess).length
    rw [List.length_map]
    exact hj
  obtain ⟨f1, f2, f3⟩ := hall j hj0
  have hb0 : ((resetProcessesState st).processes.getD j dummyProcess).burstTime = 0 := by
    rw [hgetD j]
    exact hburst0
  have hid0 : ((resetProcessesState st).processes.getD j dummyProcess).id
      = (st.processes.getD j dummyProcess).id := by
    rw [hgetD j]
    rfl
  have hmem := f3 ⟨htq, hb0⟩
  rw [hid0] at hmem
  have hb2 : (st2.processes.getD j dummyProcess).burstTime = 0 := by
    have := (immutP_fields (immutP_getD himm j)).2.1
    rw [this, hb0]
  refine ⟨f1, ?_, hmem⟩
  rw [f2, hb2]
  omega

/-- C4 witness: the amended theorem applied to the concrete zero-burst
state with quantum 1. -/
theorem rr_zero_burst_finalized_witness :
    multiCoreRoundRobin 1 zeroBurstState = some (rrResultOrSelf 1 zeroBurstState) ∧
    ((rrResultOrSelf 1 zeroBurstState).processes.getD 0 dummyProcess).coreId = 0 ∧
    ((zeroBurstState.processes.getD 0 dummyProcess).id, 0)
      ∈ (rrResultOrSelf 1 zeroBurstState).ganttCharts.getD 0 [] := by
  have hsome : multiCoreRoundRobin 1 zeroBurstState
      = some (rrResultOrSelf 1 zeroBurstState) := by
    unfold rrResultOrSelf
    match hm : multiCoreRoundRobin 1 zeroBurstState with
    | some s => rfl
    | none =>
      have : (multiCoreRoundRobin 1 zeroBurstState).isSome = true := by decide
      rw [hm] at this
      cases this
  have h := rr_zero_burst_finalized zeroBurstState 1 (rrResultOrSelf 1 zeroBurstState)
    (by decide) (by decide) (by decide) hsome 0 (by decide) (by decide)
  exact ⟨hsome, by simpa using h.1, by simpa using h.2.2⟩

/- A policy run only rewrites the mutable per-run fields: the immutable
projection of every process, the chart-list length and the core count are
preserved; `resetProcessesState` is determined by exactly those, so
`reset ∘ policy = reset` — the key to idempotence. -/

theorem map_reset_eq {l1 l2 : List Process} (h : l1.map immutP = l2.map immutP) :
    l1.map resetProcess = l2.map resetProcess := by
  have hfac : ∀ l : List Process, l.map resetProcess
      = (l.map immutP).map (fun t =>
          ({ id := t.1
             burstTime := t.2.1
             priority := t.2.2.1
             deadline := t.2.2.2.1
             waitingTime := 0
             turnaroundTime := 0
             remainingTime := t.2.1
             coreId := -1
             isRealTime := t.2.2.2.2.1
             powerConsumption := t.2.2.2.2.2 } : Process)) := by
    intro l
    rw [List.map_map]
    rfl
  rw [hfac l1, hfac l2, h]

theorem reset_eq_of {st1 st2 : SchedState}
    (hp : st1.processes.map immutP = st2.processes.map immutP)
    (hc : st1.ganttCharts.length = st2.ganttCharts.length)
    (hn : st1.numCores = st2.numCores) :
    resetProcessesState st1 = resetProcessesState st2 := by
  unfold resetProcessesState
  rw [map_reset_eq hp, hn, List.map_const', List.map_const', hc]

theorem map_immut_reset (l : List Process) :
    (l.map resetProcess).map immutP = l.map immutP := by
  rw [List.map_map]
  rfl

theorem fcfsGo_immut (ps : List Process) :
    ∀ (ct : List Int) (charts : List (List (Int × Int))) (pw : ℚ),
      (fcfsGo ps ct charts pw).1.map immutP = ps.map immutP ∧
      (fcfsGo ps ct charts pw).2.2.1.length = charts.length := by
  induction ps with
  | nil => intro ct charts pw; exact ⟨rfl, rfl⟩
  | cons p rest ih =>
    intro ct charts pw
    obtain ⟨i1, i2⟩ := ih (listModify ct (minElementIdx ct) (· + p.burstTime))
      (listModify charts (minElementIdx ct) (· ++ [(p.id, p.burstTime)]))
      (pw + p.powerConsumption)
    rw [listModify_length] at i2
    constructor
    · simp only [fcfsGo, List.map_cons]
      rw [i1]
      rfl
    · simp only [fcfsGo]
      exact i2

theorem priGo_immut (ss : List Process) :
    ∀ (procs : List Process) (ct : List Int) (charts : List (List (Int × Int))) (pw : ℚ),
      (priGo ss procs ct charts pw).1.map immutP = procs.map immutP ∧
      (priGo ss procs ct charts pw).2.2.1.length = charts.length := by
  induction ss with
  | nil => intro procs ct charts pw; exact ⟨rfl, rfl⟩
  | cons s ss ih =>
    intro procs ct charts pw
    match hfind : procs.findIdx? (fun q => decide (q.id = s.id)) with
    | none =>
      simp only [priGo, hfind]
      exact ih procs ct charts pw
    | some i =>
      simp only [priGo, hfind]
      obtain ⟨i1, i2⟩ := ih (procs.set i
          { procs.getD i dummyProcess with
            coreId := ((minElementIdx ct : Nat) : Int)
            waitingTime := ct.getD (minElementIdx ct) 0
            turnaroundTime := ct.getD (minElementIdx ct) 0
              + (procs.getD i dummyProcess).burstTime })
        (listModify ct (minElementIdx ct) (· + (procs.getD i dummyProcess).burstTime))
        (listModify charts (minElementIdx ct)
          (· ++ [((procs.getD i dummyProcess).id, (procs.getD i dummyProcess).burstTime)]))
        (pw + (procs.getD i dummyProcess).powerConsumption)
      rw [listModify_length] at i2
      refine ⟨?_, i2⟩
      rw [i1]
      exact map_set_self procs i _ immutP dummyProcess rfl

theorem edfGo_immut (ss : List Process) (procs : List Process) (ct : List Int)
    (charts : List (List (Int × Int))) (pw : ℚ) (m : Int) :
    (edfGo ss procs ct charts pw m).1.map immutP = procs.map immutP ∧
    (edfGo ss procs ct charts pw m).2.2.1.length = charts.length := by
  obtain ⟨c1, _, c3, _⟩ := edfGo_components ss procs ct charts pw m
  obtain ⟨p1, p2⟩ := priGo_immut ss procs ct charts pw
  exact ⟨by rw [c1]; exact p1, by rw [c3]; exact p2⟩

theorem fcfs_preserves (st : SchedState) :
    (multiCoreFCFS st).processes.map immutP = st.processes.map immutP ∧
    (multiCoreFCFS st).ganttCharts.length = st.ganttCharts.length ∧
    (multiCoreFCFS st).numCores = st.numCores := by
  obtain ⟨i1, i2⟩ := fcfsGo_immut (resetProcessesState st).processes
    (List.replicate st.numCores.toNat 0) (resetProcessesState st).ganttCharts 0
  exact ⟨i1.trans (map_immut_reset st.processes),
    i2.trans (List.length_map st.ganttCharts _), rfl⟩

theorem pri_preserves (sorted : List Process) (st : SchedState) :
    (priorityScheduling sorted st).processes.map immutP = st.processes.map immutP ∧
    (priorityScheduling sorted st).ganttCharts.length = st.ganttCharts.length ∧
    (priorityScheduling sorted st).numCores = st.numCores := by
  obtain ⟨i1, i2⟩ := priGo_immut sorted (resetProcessesState st).processes
    (List.replicate st.numCores.toNat 0) (resetProcessesState st).ganttCharts 0
  exact ⟨i1.trans (map_immut_reset st.processes),
    i2.trans (List.length_map st.ganttCharts _), rfl⟩

theorem edf_preserves (sorted : List Process) (st : SchedState) :
    (edfScheduling sorted st).processes.map immutP = st.processes.map immutP ∧
    (edfScheduling sorted st).ganttCharts.length = st.ganttCharts.length ∧
    (edfScheduling sorted st).numCores = st.numCores := by
  obtain ⟨i1, i2⟩ := edfGo_immut sorted (resetProcessesState st).processes
    (List.replicate st.numCores.toNat 0) (resetProcessesState st).ganttCharts 0 0
  exact ⟨i1.trans (map_immut_reset st.processes),
    i2.trans (List.length_map st.ganttCharts _), rfl⟩

theorem rrCore_immut (tq : Int) (s0 st2 : SchedState) (hrun : rrCore tq s0 = some st2) :
    st2.processes.map immutP = s0.processes.map immutP ∧
    st2.ganttCharts.length = s0.ganttCharts.length ∧
    st2.numCores = s0.numCores := by
  unfold rrCore at hrun
  dsimp only at hrun
  match hloop : rrLoop tq s0.numCores.toNat (rrFuel s0.processes)
      { procs := s0.processes, queues := buildQueues s0.processes.length s0.numCores.toNat,
        coreTime := List.replicate s0.numCores.toNat 0, charts := s0.ganttCharts,
        power := 0 } with
  | none => rw [hloop] at hrun; cases hrun
  | some s =>
    rw [hloop] at hrun
    have hst2 := (Option.some.injEq _ _).mp hrun
    obtain ⟨l1, _, l3, _, _⟩ := rrLoop_immut tq s0.numCores.toNat _ _ s hloop
    refine ⟨?_, ?_, by rw [← hst2]⟩
    · rw [← hst2]
      exact l1
    · rw [← hst2]
      exact l3

/-- C9: running the same policy twice in a row on an unmodified process set
yields identical output the second time.  Each policy is a function of the
post-reset state only, and a policy run preserves everything the reset
depends on (immutable process fields, chart count, core count); the sort in
Priority/EDF is any fixed (deterministic) function `f` of the post-reset
collection, so the second run sorts the identical list identically. -/
theorem policies_idempotent (st : SchedState) :
    multiCoreFCFS (multiCoreFCFS st) = multiCoreFCFS st ∧
    (∀ f : List Process → List Process,
      priorityScheduling
        (f (resetProcessesState
            (priorityScheduling (f (resetProcessesState st).processes) st)).processes)
        (priorityScheduling (f (resetProcessesState st).processes) st)
      = priorityScheduling (f (resetProcessesState st).processes) st) ∧
    (∀ f : List Process → List Process,
      edfScheduling
        (f (resetProcessesState
            (edfScheduling (f (resetProcessesState st).processes) st)).processes)
        (edfScheduling (f (resetProcessesState st).processes) st)
      = edfScheduling (f (resetProcessesState st).processes) st) ∧
    (∀ (tq : Int) (st2 : SchedState), multiCoreRoundRobin tq st = some st2 →
      multiCoreRoundRobin tq st2 = some st2) := by
  refine ⟨?_, ?_, ?_, ?_⟩
  · obtain ⟨h1, h2, h3⟩ := fcfs_preserves st
    have hreset := reset_eq_of h1 h2 h3
    show fcfsCore (resetProcessesState (multiCoreFCFS st)) = multiCoreFCFS st
    rw [hreset]
    rfl
  · intro f
    obtain ⟨h1, h2, h3⟩ := pri_preserves (f (resetProcessesState st).processes) st
    have hreset := reset_eq_of h1 h2 h3
    show priCore
      (f (resetProcessesState
          (priorityScheduling (f (resetProcessesState st).processes) st)).processes)
      (resetProcessesState
        (priorityScheduling (f (resetProcessesState st).processes) st))
      = priorityScheduling (f (resetProcessesState st).processes) st
    rw [hreset]
    rfl
  · intro f
    obtain ⟨h1, h2, h3⟩ := edf_preserves (f (resetProcessesState st).processes) st
    have hreset := reset_eq_of h1 h2 h3
    show edfCore
      (f (resetProcessesState
          (edfScheduling (f (resetProcessesState st).processes) st)).processes)
      (resetProcessesState
        (edfScheduling (f (resetProcessesState st).processes) st))
      = edfScheduling (f (resetProcessesState st).processes) st
    rw [hreset]
    rfl
  · intro tq st2 hrun
    obtain ⟨h1, h2, h3⟩ := rrCore_immut tq (resetProcessesState st) st2 hrun
    have hreset := reset_eq_of (h1.trans (map_immut_reset st.processes))
      (h2.trans (List.length_map st.ganttCharts _)) h3
    show rrCore tq (resetProcessesState st2) = some st2
    rw [hreset]
    exact hrun

/-- C9 witness: FCFS idempotence instantiated on a concrete two-core
engine. -/
theorem policies_idempotent_witness :
    multiCoreFCFS (multiCoreFCFS witnessState) = multiCoreFCFS witnessState :=
  (policies_idempotent witnessState).1

theorem countP_set_of_false {α : Type} (l : List α) :
    ∀ (i : Nat) (a : α) (p : α → Bool) (d : α), i < l.length →
      p (l.getD i d) = false →
      (l.set i a).countP p = l.countP p + (if p a then 1 else 0) := by
  induction l with
  | nil => intro i a p d hi; simp at hi
  | cons x xs ih =>
    intro i a p d hi hold
    cases i with
    | zero =>
      simp only [List.getD_cons_zero] at hold
      simp [List.countP_cons, hold]
    | succ i =>
      simp only [List.getD_cons_succ] at hold
      simp only [List.set_cons_succ, List.countP_cons]
      rw [ih i a p d (by simpa using hi) hold]
      omega

theorem findIdx?_id_congr {l1 l2 : List Process}
    (h : l1.map (fun p => p.id) = l2.map (fun p => p.id)) (x : Int) :
    l1.findIdx? (fun q => decide (q.id = x)) = l2.findIdx? (fun q => decide (q.id = x)) := by
  induction l1 generalizing l2 with
  | nil =>
    cases l2 with
    | nil => rfl
    | cons b l2 => simp at h
  | cons a l1 ih =>
    cases l2 with
    | nil => simp at h
    | cons b l2 =>
      simp only [List.map_cons, List.cons.injEq] at h
      rw [List.findIdx?_cons, List.findIdx?_cons, h.1]
      by_cases hx : b.id = x
      · simp [hx]
      · simp only [hx, decide_False, Bool.false_eq_true, if_false]
        rw [List.findIdx?_succ, List.findIdx?_succ, ih h.2]

/- The deadline-miss counter equals the miss count recomputed over the final
process list, provided every pass writes a process that is still in its
reset state (which distinct ids guarantee). -/
theorem edfGo_misses (ss : List Process) :
    ∀ (procs : List Process) (ct : List Int) (charts : List (List (Int × Int)))
      (pw : ℚ) (m : Int),
      (ss.map (fun p => p.id)).Nodup →
      (∀ s ∈ ss, ∀ i, procs.findIdx? (fun q => decide (q.id = s.id)) = some i →
        (decide (0 < (procs.getD i dummyProcess).deadline ∧
          (procs.getD i dummyProcess).deadline
            < (procs.getD i dummyProcess).turnaroundTime)) = false) →
      (edfGo ss procs ct charts pw m).2.2.2.2
        = m + ((edfGo ss procs ct charts pw m).1.countP
            (fun q => decide (0 < q.deadline ∧ q.deadline < q.turnaroundTime)) : Int)
          - (procs.countP (fun q => decide (0 < q.deadline ∧ q.deadline < q.turnaroundTime)) : Int) := by
  induction ss with
  | nil =>
    intro procs ct charts pw m _ _
    simp only [edfGo]
    omega
  | cons s ss ih =>
    intro procs ct charts pw m hnd hvirgin
    simp only [List.map_cons, List.nodup_cons] at hnd
    match hfind : procs.findIdx? (fun q => decide (q.id = s.id)) with
    | none =>
      simp only [edfGo, hfind]
      exact ih procs ct charts pw m hnd.2
        (fun s2 hs2 i hf => hvirgin s2 (List.mem_cons_of_mem _ hs2) i hf)
    | some i =>
      obtain ⟨hi, hpi, _⟩ := findIdx?_spec dummyProcess procs _ i hfind
      simp only [decide_eq_true_eq] at hpi
      have hv := hvirgin s (List.mem_cons_self _ _) i hfind
      have hids2 : (procs.set i
          { procs.getD i dummyProcess with
            coreId := ((minElementIdx ct : Nat) : Int)
            waitingTime := ct.getD (minElementIdx ct) 0
            turnaroundTime := ct.getD (minElementIdx ct) 0
              + (procs.getD i dummyProcess).burstTime }).map (fun p => p.id)
          = procs.map (fun p => p.id) :=
        map_set_self procs i _ (fun p => p.id) dummyProcess rfl
      have hvirgin2 : ∀ s2 ∈ ss, ∀ i2, (procs.set i
          { procs.getD i dummyProcess with
            coreId := ((minElementIdx ct : Nat) : Int)
            waitingTime := ct.getD (minElementIdx ct) 0
            turnaroundTime := ct.getD (minElementIdx ct) 0
              + (procs.getD i dummyProcess).burstTime }).findIdx?
            (fun q => decide (q.id = s2.id)) = some i2 →
          (decide (0 < ((procs.set i
            { procs.getD i dummyProcess with
              coreId := ((minElementIdx ct : Nat) : Int)
              waitingTime := ct.getD (minElementIdx ct) 0
              turnaroundTime := ct.getD (minElementIdx ct) 0
                + (procs.getD i dummyProcess).burstTime }).getD i2 dummyProcess).deadline ∧
            ((procs.set i
            { procs.getD i dummyProcess with
              coreId := ((minElementIdx ct : Nat) : Int)
              waitingTime := ct.getD (minElementIdx ct) 0
              turnaroundTime := ct.getD (minElementIdx ct) 0
                + (procs.getD i dummyProcess).burstTime }).getD i2 dummyProcess).deadline
              < ((procs.set i
            { procs.getD i dummyProcess with
              coreId := ((minElementIdx ct : Nat) : Int)
              waitingTime := ct.getD (minElementIdx ct) 0
              turnaroundTime := ct.getD (minElementIdx ct) 0
                + (procs.getD i dummyProcess).burstTime }).getD i2
                dummyProcess).turnaroundTime)) = false := by
        intro s2 hs2 i2 hfind2
        rw [findIdx?_id_congr hids2 s2.id] at hfind2
        obtain ⟨_, hpi2, _⟩ := findIdx?_spec dummyProcess procs _ i2 hfind2
        simp only [decide_eq_true_eq] at hpi2
        have hne : i ≠ i2 := by
          intro he
          subst he
          rw [hpi] at hpi2
          exact hnd.1 (hpi2 ▸ List.mem_map_of_mem (fun p => p.id) hs2)
        rw [getD_set_ne procs i i2 _ dummyProcess hne]
        exact hvirgin s2 (List.mem_cons_of_mem _ hs2) i2 hfind2
      simp only [edfGo, hfind]
      rw [ih _ _ _ _ _ hnd.2 hvirgin2]
      rw [countP_set_of_false procs i _ _ dummyProcess hi hv]
      by_cases hc : 0 < (procs.getD i dummyProcess).deadline ∧
          (procs.getD i dummyProcess).deadline
            < ct.getD (minElementIdx ct) 0 + (procs.getD i dummyProcess).burstTime
      · simp only [decide_eq_true_eq]
        rw [if_pos hc, if_pos hc]
        omega
      · simp only [decide_eq_true_eq]
        rw [if_neg hc, if_neg hc]
        omega

theorem calculateMetrics_misses (m : SystemMetrics) (nc t : Int) :
    (calculateMetrics m nc t).deadlineMisses = m.deadlineMisses := by
  unfold calculateMetrics
  dsimp only
  split <;> split <;> rfl

/-- C8 (amended): for process sets with pairwise-distinct ids, after
`edfScheduling` (under any admissible `std::sort` output) the reported
`deadlineMisses` equals the number of processes in the finalized collection
with `deadline > 0` and `turnaroundTime > deadline`, recomputed independently
from the final process list.  (Over arbitrary process sets the claim fails:
with duplicate ids the first matching process is written and miss-checked
once per duplicate, see the counterexample.) -/
theorem edf_misses_recount (st : SchedState) (sorted : List Process)
    (hids : (st.processes.map (fun p => p.id)).Nodup)
    (hperm : (sorted.map (fun p => p.id)).Perm (st.processes.map (fun p => p.id))) :
    (edfScheduling sorted st).metrics.deadlineMisses
      = (countMisses (edfScheduling sorted st).processes : Int) := by
  have hrd : resetProcess dummyProcess = dummyProcess := rfl
  have hgetD : ∀ j, (resetProcessesState st).processes.getD j dummyProcess
      = resetProcess (st.processes.getD j dummyProcess) := by
    intro j
    show ((st.processes.map resetProcess).getD j dummyProcess) = _
    rw [← hrd, List.getD_map]
    rw [hrd]
  have hids0 : ((resetProcessesState st).processes.map (fun p => p.id))
      = st.processes.map (fun p => p.id) := by
    show ((st.processes.map resetProcess).map (fun p => p.id)) = _
    rw [List.map_map]
    rfl
  have hndss : (sorted.map (fun p => p.id)).Nodup := hperm.nodup_iff.mpr hids
  have hvirgin : ∀ s ∈ sorted, ∀ i,
      (resetProcessesState st).processes.findIdx?
        (fun q => decide (q.id = s.id)) = some i →
      (decide (0 < ((resetProcessesState st).processes.getD i dummyProcess).deadline ∧
        ((resetProcessesState st).processes.getD i dummyProcess).deadline
          < ((resetProcessesState st).processes.getD i dummyProcess).turnaroundTime))
        = false := by
    intro s _ i _
    rw [hgetD i]
    have ht : (resetProcess (st.processes.getD i dummyProcess)).turnaroundTime = 0 := rfl
    simp only [decide_eq_false_iff_not]
    rintro ⟨h1, h2⟩
    rw [ht] at h2
    omega
  have hcnt0 : (resetProcessesState st).processes.countP
      (fun q => decide (0 < q.deadline ∧ q.deadline < q.turnaroundTime)) = 0 := by
    rw [List.countP_eq_zero]
    intro a ha
    obtain ⟨b, _, rfl⟩ := List.mem_map.mp ha
    have ht : (resetProcess b).turnaroundTime = 0 := rfl
    simp only [decide_eq_true_eq]
    rintro ⟨h1, h2⟩
    rw [ht] at h2
    omega
  have hmain := edfGo_misses sorted (resetProcessesState st).processes
    (List.replicate st.numCores.toNat 0) (resetProcessesState st).ganttCharts 0 0
    hndss hvirgin
  have h1 : (edfScheduling sorted st).metrics.deadlineMisses
      = (edfGo sorted (resetProcessesState st).processes
          (List.replicate st.numCores.toNat 0) (resetProcessesState st).ganttCharts 0 0).2.2.2.2 :=
    calculateMetrics_misses _ _ _
  rw [h1, hmain, hcnt0]
  have h2 : (edfScheduling sorted st).processes
      = (edfGo sorted (resetProcessesState st).processes
          (List.replicate st.numCores.toNat 0) (resetProcessesState st).ganttCharts 0 0).1 := rfl
  unfold countMisses
  rw [h2]
  omega

/-- C8 counterexample: two processes share id 1 (deadlines 4 < 10 force the
sort order): the engine counts 2 misses — the first process is written and
miss-checked on both passes — while the recount over the finalized list is
1. -/
theorem edf_misses_recount_cex :
    SortSpecDeadline (dupIdState.processes.map resetProcess) dupIdSorted ∧
    (edfScheduling dupIdSorted dupIdState).metrics.deadlineMisses = 2 ∧
    countMisses (edfScheduling dupIdSorted dupIdState).processes = 1 ∧
    (2 : Int) ≠ ((1 : Nat) : Int) := by
  refine ⟨⟨List.Perm.refl _, ?_⟩, by decide, by decide, by decide⟩
  refine List.Pairwise.cons ?_ (List.Pairwise.cons ?_ List.Pairwise.nil)
  · intro b hb
    have : b = resetProcess (mkProcess 1 3 2 10 false) := by
      simpa [dupIdSorted, dupIdState] using hb
    subst this
    decide
  · intro b hb
    simp [dupIdSorted, dupIdState] at hb

/-- C8 witness: the amended theorem applied to a concrete two-process,
two-core engine with distinct ids. -/
theorem edf_misses_recount_witness :
    (edfScheduling edfWitnessSorted witnessState).metrics.deadlineMisses
      = (countMisses (edfScheduling edfWitnessSorted witnessState).processes : Int) :=
  edf_misses_recount witnessState edfWitnessSorted (by decide) (List.Perm.swap 1 2 [])

theorem getD_id_set_assign (procs : List Process) (i0 : Nat) (ct : List Int) (k : Nat) :
    ((procs.set i0 { procs.getD i0 dummyProcess with
        coreId := ((minElementIdx ct : Nat) : Int)
        waitingTime := ct.getD (minElementIdx ct) 0
        turnaroundTime := ct.getD (minElementIdx ct) 0
          + (procs.getD i0 dummyProcess).burstTime }).getD k dummyProcess).id
      = (procs.getD k dummyProcess).id := by
  by_cases hk : i0 = k
  · subst hk
    by_cases hi : i0 < procs.length
    · rw [getD_set_self procs i0 _ dummyProcess hi]
    · rw [List.getD_eq_default _ _ (by rw [List.length_set]; omega),
        List.getD_eq_default _ _ (by omega)]
  · rw [getD_set_ne procs i0 k _ dummyProcess hk]

/- A position that is not the first occurrence of its id is never written by
the Priority/EDF pass (the `std::find_if` always resolves to the first
occurrence). -/
theorem priGo_untouched (ss : List Process) :
    ∀ (procs : List Process) (ct : List Int) (charts : List (List (Int × Int)))
      (pw : ℚ) (j : Nat), j < procs.length →
      (∃ i, i < j ∧ (procs.getD i dummyProcess).id = (procs.getD j dummyProcess).id) →
      (priGo ss procs ct charts pw).1.getD j dummyProcess = procs.getD j dummyProcess := by
  induction ss with
  | nil => intro procs ct charts pw j _ _; rfl
  | cons s ss ih =>
    intro procs ct charts pw j hj hdup
    match hfind : procs.findIdx? (fun q => decide (q.id = s.id)) with
    | none =>
      simp only [priGo, hfind]
      exact ih procs ct charts pw j hj hdup
    | some i0 =>
      obtain ⟨hi0, hp0, hfirst⟩ := findIdx?_spec dummyProcess procs _ i0 hfind
      simp only [decide_eq_true_eq] at hp0
      obtain ⟨i, hij, hid⟩ := hdup
      have hne : i0 ≠ j := by
        intro he
        subst he
        have := hfirst i hij
        simp only [decide_eq_false_iff_not] at this
        exact this (hid.trans hp0)
      simp only [priGo, hfind]
      refine Eq.trans (ih _ _ _ _ j ?_ ?_) ?_
      · rw [List.length_set]
        exact hj
      · exact ⟨i, hij, by
          rw [getD_id_set_assign procs i0 ct i, getD_id_set_assign procs i0 ct j]
          exact hid⟩
      · rw [getD_set_ne procs i0 j _ dummyProcess hne]

/-- C10 (amended): when two processes share an id, every sorted-order pass
for that id resolves `std::find_if` to the FIRST insertion-order process
with that id and writes the assignment there (each pass appends a timeline
slice carrying the first process's id and burstTime and adds the first
process's burstTime — not the duplicate's own — to the core's busy time),
while every later process with that id stays in its reset state:
`coreId = -1`, `waitingTime = 0`, `turnaroundTime = 0`, in both
`priorityScheduling` and `edfScheduling`. -/
theorem pri_edf_duplicate_ids (st : SchedState) (sorted : List Process) (j : Nat)
    (hj : j < st.processes.length)
    (hdup : ∃ i, i < j ∧ (st.processes.getD i dummyProcess).id
      = (st.processes.getD j dummyProcess).id) :
    ((priorityScheduling sorted st).processes.getD j dummyProcess
        = resetProcess (st.processes.getD j dummyProcess) ∧
      ((priorityScheduling sorted st).processes.getD j dummyProcess).coreId = -1 ∧
      ((priorityScheduling sorted st).processes.getD j dummyProcess).waitingTime = 0 ∧
      ((priorityScheduling sorted st).processes.getD j dummyProcess).turnaroundTime = 0) ∧
    ((edfScheduling sorted st).processes.getD j dummyProcess
        = resetProcess (st.processes.getD j dummyProcess) ∧
      ((edfScheduling sorted st).processes.getD j dummyProcess).coreId = -1 ∧
      ((edfScheduling sorted st).processes.getD j dummyProcess).waitingTime = 0 ∧
      ((edfScheduling sorted st).processes.getD j dummyProcess).turnaroundTime = 0) ∧
    (∀ (s : Process) (ss procs : List Process) (ct : List Int)
        (charts : List (List (Int × Int))) (pw : ℚ) (i : Nat),
      procs.findIdx? (fun q => decide (q.id = s.id)) = some i →
      priGo (s :: ss) procs ct charts pw = priGo ss
        (procs.set i { procs.getD i dummyProcess with
          coreId := ((minElementIdx ct : Nat) : Int)
          waitingTime := ct.getD (minElementIdx ct) 0
          turnaroundTime := ct.getD (minElementIdx ct) 0
            + (procs.getD i dummyProcess).burstTime })
        (listModify ct (minElementIdx ct) (· + (procs.getD i dummyProcess).burstTime))
        (listModify charts (minElementIdx ct)
          (· ++ [((procs.getD i dummyProcess).id, (procs.getD i dummyProcess).burstTime)]))
        (pw + (procs.getD i dummyProcess).powerConsumption)) := by
  have hrd : resetProcess dummyProcess = dummyProcess := rfl
  have hgetD : ∀ k, (resetProcessesState st).processes.getD k dummyProcess
      = resetProcess (st.processes.getD k dummyProcess) := by
    intro k
    show ((st.processes.map resetProcess).getD k dummyProcess) = _
    rw [← hrd, List.getD_map]
    rw [hrd]
  have hj0 : j < (resetProcessesState st).processes.length := by
    show j < (st.processes.map resetProcess).length
    rw [List.length_map]
    exact hj
  have hdup0 : ∃ i, i < j ∧
      ((resetProcessesState st).processes.getD i dummyProcess).id
        = ((resetProcessesState st).processes.getD j dummyProcess).id := by
    obtain ⟨i, hij, hid⟩ := hdup
    exact ⟨i, hij, by rw [hgetD i, hgetD j]; exact hid⟩
  have hpri := priGo_untouched sorted (resetProcessesState st).processes
    (List.replicate st.numCores.toNat 0) (resetProcessesState st).ganttCharts 0 j hj0 hdup0
  rw [hgetD j] at hpri
  have hpriS : (priorityScheduling sorted st).processes.getD j dummyProcess
      = resetProcess (st.processes.getD j dummyProcess) := hpri
  refine ⟨⟨hpriS, by rw [hpriS]; rfl, by rw [hpriS]; rfl, by rw [hpriS]; rfl⟩, ?_, ?_⟩
  · have heq : (edfScheduling sorted st).processes
        = (edfGo sorted (resetProcessesState st).processes
          (List.replicate st.numCores.toNat 0) (resetProcessesState st).ganttCharts 0 0).1 := rfl
    have hcomp := (edfGo_components sorted (resetProcessesState st).processes
      (List.replicate st.numCores.toNat 0) (resetProcessesState st).ganttCharts 0 0).1
    have hedf : (edfScheduling sorted st).processes.getD j dummyProcess
        = resetProcess (st.processes.getD j dummyProcess) := by
      rw [heq, hcomp]
      exact hpri
    exact ⟨hedf, by rw [hedf]; rfl, by rw [hedf]; rfl, by rw [hedf]; rfl⟩
  · intro s ss procs ct charts pw i hfind
    simp only [priGo, hfind]

/-- C10 counterexample: both processes have id 1 with bursts 5 and 3
(priorities 1 < 2 force the sort order): both passes schedule the first
process, so the single-core timeline is `[(1,5), (1,5)]` — there is no slice
of the duplicate's own burst 3 and its burst never reaches the busy time —
refuting the claim's "its burstTime is still added ... and a timeline slice
is appended for it". -/
theorem pri_edf_duplicate_ids_cex :
    (priorityScheduling dupIdSorted dupIdState).ganttCharts = [[(1, 5), (1, 5)]] ∧
    ¬ (((1 : Int), (3 : Int))
      ∈ (priorityScheduling dupIdSorted dupIdState).ganttCharts.getD 0 []) ∧
    ((priorityScheduling dupIdSorted dupIdState).processes.getD 1 dummyProcess).coreId
      = -1 ∧
    (dupIdState.processes.getD 1 dummyProcess).burstTime = 3 := by
  refine ⟨by decide, by decide, by decide, by decide⟩

/-- C10 witness: the amended theorem applied at the concrete duplicate-id
engine, position 1. -/
theorem pri_edf_duplicate_ids_witness :
    ((priorityScheduling dupIdSorted dupIdState).processes.getD 1 dummyProcess).coreId
      = -1 ∧
    ((edfScheduling dupIdSorted dupIdState).processes.getD 1 dummyProcess).turnaroundTime
      = 0 :=
  ⟨(pri_edf_duplicate_ids dupIdState dupIdSorted 1 (by decide)
      ⟨0, by decide, by decide⟩).1.2.1,
   (pri_edf_duplicate_ids dupIdState dupIdSorted 1 (by decide)
      ⟨0, by decide, by decide⟩).2.1.2.2.2⟩

/- On a single core, the timeline records exactly the pass order: the chart
is the sorted list's `(id, burstTime)` sequence (distinct ids, every sorted
element present in the collection). -/
theorem priGo_chart_single (ss : List Process) :
    ∀ (procs : List Process) (t : Int) (c : List (Int × Int)) (pw : ℚ),
      (ss.map (fun p => p.id)).Nodup →
      (∀ s ∈ ss, ∃ i, procs.findIdx? (fun q => decide (q.id = s.id)) = some i ∧
        (procs.getD i dummyProcess).burstTime = s.burstTime) →
      (priGo ss procs [t] [c] pw).2.2.1 = [c ++ ss.map (fun s => (s.id, s.burstTime))] := by
  induction ss with
  | nil => intro procs t c pw _ _; simp [priGo]
  | cons s ss ih =>
    intro procs t c pw hnd hwit
    simp only [List.map_cons, List.nodup_cons] at hnd
    obtain ⟨i, hfind, hburst⟩ := hwit s (List.mem_cons_self _ _)
    obtain ⟨hi, hpi, _⟩ := findIdx?_spec dummyProcess procs _ i hfind
    simp only [decide_eq_true_eq] at hpi
    have hids2 : (procs.set i
        { procs.getD i dummyProcess with
          coreId := ((minElementIdx [t] : Nat) : Int)
          waitingTime := List.getD [t] (minElementIdx [t]) 0
          turnaroundTime := List.getD [t] (minElementIdx [t]) 0
            + (procs.getD i dummyProcess).burstTime }).map (fun p => p.id)
        = procs.map (fun p => p.id) :=
      map_set_self procs i _ (fun p => p.id) dummyProcess rfl
    have hwit2 : ∀ s2 ∈ ss, ∃ i2, (procs.set i
        { procs.getD i dummyProcess with
          coreId := ((minElementIdx [t] : Nat) : Int)
          waitingTime := List.getD [t] (minElementIdx [t]) 0
          turnaroundTime := List.getD [t] (minElementIdx [t]) 0
            + (procs.getD i dummyProcess).burstTime }).findIdx?
          (fun q => decide (q.id = s2.id)) = some i2 ∧
        (((procs.set i
        { procs.getD i dummyProcess with
          coreId := ((minElementIdx [t] : Nat) : Int)
          waitingTime := List.getD [t] (minElementIdx [t]) 0
          turnaroundTime := List.getD [t] (minElementIdx [t]) 0
            + (procs.getD i dummyProcess).burstTime }).getD i2 dummyProcess)).burstTime
          = s2.burstTime := by
      intro s2 hs2
      obtain ⟨i2, hf2, hb2⟩ := hwit s2 (List.mem_cons_of_mem _ hs2)
      obtain ⟨_, hpi2, _⟩ := findIdx?_spec dummyProcess procs _ i2 hf2
      simp only [decide_eq_true_eq] at hpi2
      have hne : i ≠ i2 := by
        intro he
        subst he
        rw [hpi] at hpi2
        exact hnd.1 (hpi2 ▸ List.mem_map_of_mem (fun p => p.id) hs2)
      refine ⟨i2, ?_, ?_⟩
      · rw [findIdx?_id_congr hids2 s2.id]
        exact hf2
      · rw [getD_set_ne procs i i2 _ dummyProcess hne]
        exact hb2
    simp only [priGo, hfind]
    have hmin : minElementIdx [t] = 0 := rfl
    have hct : listModify [t] (minElementIdx [t])
        (· + (procs.getD i dummyProcess).burstTime)
        = [t + (procs.getD i dummyProcess).burstTime] := rfl
    have hch : listModify [c] (minElementIdx [t])
        (· ++ [((procs.getD i dummyProcess).id, (procs.getD i dummyProcess).burstTime)])
        = [c ++ [((procs.getD i dummyProcess).id, (procs.getD i dummyProcess).burstTime)]] := rfl
    rw [hct, hch, ih _ _ _ _ hnd.2 hwit2, hpi, hburst]
    simp

/-- C3 (amended): `std::sort` guarantees a key-nondecreasing permutation but
NOT stability, so the scheduled order is exactly the (arbitrary-tie-order)
sort output: on a single-core engine with distinct ids, each policy's
timeline is literally `sorted.map (id, burstTime)` for whatever admissible
`sorted` the sort produced — equal-key processes may be scheduled in either
relative order. -/
theorem pri_edf_order_unstable (st : SchedState) (sorted : List Process)
    (hn1 : st.numCores = 1)
    (hlen : st.ganttCharts.length = 1)
    (hids : (st.processes.map (fun p => p.id)).Nodup) :
    (SortSpecPriority (st.processes.map resetProcess) sorted →
      (priorityScheduling sorted st).ganttCharts
        = [sorted.map (fun s => (s.id, s.burstTime))]) ∧
    (SortSpecDeadline (st.processes.map resetProcess) sorted →
      (edfScheduling sorted st).ganttCharts
        = [sorted.map (fun s => (s.id, s.burstTime))]) := by
  have hids0 : ((resetProcessesState st).processes.map (fun p => p.id))
      = st.processes.map (fun p => p.id) := by
    show ((st.processes.map resetProcess).map (fun p => p.id)) = _
    rw [List.map_map]
    rfl
  have h1 : List.replicate st.numCores.toNat (0 : Int) = [0] := by
    rw [hn1]
    rfl
  have h2 : (resetProcessesState st).ganttCharts = [[]] := by
    show st.ganttCharts.map (fun _ => ([] : List (Int × Int))) = _
    rw [List.map_const', hlen]
    rfl
  have hwit : sorted.Perm (st.processes.map resetProcess) →
      ∀ s ∈ sorted, ∃ i, (resetProcessesState st).processes.findIdx?
          (fun q => decide (q.id = s.id)) = some i ∧
        (((resetProcessesState st).processes.getD i dummyProcess)).burstTime
          = s.burstTime := by
    intro hperm s hs
    have hs0 : s ∈ (resetProcessesState st).processes := hperm.subset hs
    obtain ⟨i, hfind⟩ := @findIdx?_isSome_of_mem Process
      (resetProcessesState st).processes (fun q => decide (q.id = s.id)) s hs0
      (by exact decide_eq_true rfl)
    obtain ⟨hi, hpi0, _⟩ := findIdx?_spec dummyProcess _ _ i hfind
    have hpi : (((resetProcessesState st).processes.getD i dummyProcess)).id = s.id :=
      of_decide_eq_true hpi0
    obtain ⟨k, hk, hks⟩ := List.getElem_of_mem hs0
    have hgk : (resetProcessesState st).processes.getD k dummyProcess = s := by
      rw [List.getD_eq_getElem _ _ hk]
      exact hks
    have hik : i = k := by
      refine nodup_map_getD_inj (by rw [hids0]; exact hids) dummyProcess hi hk ?_
      rw [hgk, hpi]
    refine ⟨i, hfind, ?_⟩
    rw [hik, hgk]
  have hndss : sorted.Perm (st.processes.map resetProcess) →
      (sorted.map (fun p => p.id)).Nodup := by
    intro hperm
    refine (List.Perm.nodup_iff (hperm.map (fun p => p.id))).mpr ?_
    show ((resetProcessesState st).processes.map (fun p => p.id)).Nodup
    rw [hids0]
    exact hids
  constructor
  · rintro ⟨hperm, _⟩
    have e : (priorityScheduling sorted st).ganttCharts
        = (priGo sorted (resetProcessesState st).processes
          (List.replicate st.numCores.toNat 0) (resetProcessesState st).ganttCharts 0).2.2.1 := rfl
    rw [e, h1, h2,
      priGo_chart_single sorted (resetProcessesState st).processes 0 [] 0
        (hndss hperm) (hwit hperm)]
    rfl
  · rintro ⟨hperm, _⟩
    have e : (edfScheduling sorted st).ganttCharts
        = (edfGo sorted (resetProcessesState st).processes
          (List.replicate st.numCores.toNat 0) (resetProcessesState st).ganttCharts 0 0).2.2.1 := rfl
    rw [e, (edfGo_components sorted (resetProcessesState st).processes
      (List.replicate st.numCores.toNat 0) (resetProcessesState st).ganttCharts 0 0).2.2.1,
      h1, h2,
      priGo_chart_single sorted (resetProcessesState st).processes 0 [] 0
        (hndss hperm) (hwit hperm)]
    rfl

/-- C3 counterexample: two processes with EQUAL priority 5 (insertion order
id 1 then id 2).  The reversed list `tieSwappedSorted` satisfies everything
`std::sort` guarantees (a permutation, non-decreasing in the key), yet under
it the engine schedules id 2 before id 1 — ties do NOT keep prior relative
order, so the claimed stability fails for an admissible sort output. -/
theorem pri_edf_order_unstable_cex :
    SortSpecPriority (tieState.processes.map resetProcess) tieSwappedSorted ∧
    (priorityScheduling tieSwappedSorted tieState).ganttCharts = [[(2, 4), (1, 3)]] ∧
    ((priorityScheduling tieSwappedSorted tieState).processes.map
      (fun p => p.waitingTime)) = [4, 0] ∧
    [[((2 : Int), (4 : Int)), (1, 3)]] ≠ [[((1 : Int), (3 : Int)), (2, 4)]] := by
  refine ⟨⟨?_, ?_⟩, by decide, by decide, by decide⟩
  · exact List.Perm.swap (resetProcess (mkProcess 1 3 5 0 false))
      (resetProcess (mkProcess 2 4 5 0 false)) []
  · refine List.Pairwise.cons ?_ (List.Pairwise.cons ?_ List.Pairwise.nil)
    · intro b hb
      have : b = resetProcess (mkProcess 1 3 5 0 false) := by
        simpa [tieSwappedSorted] using hb
      subst this
      decide
    · intro b hb
      simp [tieSwappedSorted] at hb

/-- C3 witness: the amended theorem applied to `tieState` with the
insertion-order sort output — the timeline is that order's `(id, burst)`
sequence. -/
theorem pri_edf_order_unstable_witness :
    (priorityScheduling (tieState.processes.map resetProcess) tieState).ganttCharts
      = [(tieState.processes.map resetProcess).map (fun s => (s.id, s.burstTime))] :=
  (pri_edf_order_unstable tieState (tieState.processes.map resetProcess)
    (by decide) (by decide) (by decide)).1
    ⟨List.Perm.refl _, by
      refine List.Pairwise.cons ?_ (List.Pairwise.cons ?_ List.Pairwise.nil)
      · intro b hb
        have : b = resetProcess (mkProcess 2 4 5 0 false) := by
          simpa [tieState] using hb
        subst this
        decide
      · intro b hb
        simp [tieState] at hb⟩
